import Mathlib

/-!
# Verification of the grid-puzzle renderer (`grid-renderer-scad.py`)

A shallow embedding of the piece-decomposition, coloring, geometry-synthesis
and frame-matching pipeline of `grid-renderer-scad.py`, together with proofs
and refutations of the specification claims.

Conventions of the embedding:

* Python lists of booleans become `List Bool`; tiles are `Nat × Nat` pairs.
* Python `dict` lookups (which raise `KeyError` on a missing key) become
  `Option`-valued lookups; stages of the pipeline that can raise become
  `Option`-valued computations, `none` standing for a Python runtime error.
* Reads of the gap arrays `horiz[y][x]` / `vert[x][y]` are modelled totally
  with a default of `false`.  In the source an out-of-range read raises
  `IndexError`; every theorem below either hypothesises a well-formed grid
  (under which all such reads are in range) or concerns a concrete input on
  which all reads performed by the source are in range, so the default is
  never observable.
* The floodfill's `while` loop is modelled with explicit fuel; the fuel is
  proved sufficient (`floodfillAux_isSome`) for the fuel chosen at the call
  site, so the `none` branch is unreachable from `decompose`.
* Millimetre dimensions are modelled as rationals.  The concrete settings
  (6.0, 3.6, 0.5, 0.01) and all arithmetic the source performs on them are
  exact in binary floating point at the scales involved, except for the RGB
  colour components, whose numeric values no claim mentions.
-/

/-- A tile coordinate `(x, y)`. -/
abbrev Tile := Nat × Nat

/-- The loaded grid state: `g['horiz']` and `g['vert']` from the JSON file. -/
structure FieldGrid where
  horiz : List (List Bool)
  vert : List (List Bool)
deriving DecidableEq

/-- `tile_limit_debug` with `enable_tile_limit_debug = False`. -/
def tileLimitDebug : Nat × Nat := (10000, 10000)

/-- `NUM_TILES_X = min(tile_limit_debug[0], len(horiz[0]) - 1)`. -/
def FieldGrid.numX (g : FieldGrid) : Nat :=
  min tileLimitDebug.1 ((g.horiz.headD []).length - 1)

/-- `NUM_TILES_Y = min(tile_limit_debug[1], len(vert[0]) - 1)`. -/
def FieldGrid.numY (g : FieldGrid) : Nat :=
  min tileLimitDebug.2 ((g.vert.headD []).length - 1)

/-- `horiz[y][x]` (out-of-range reads default to `false`; see module header). -/
def FieldGrid.horizAt (g : FieldGrid) (y x : Nat) : Bool :=
  (g.horiz.getD y []).getD x false

/-- `vert[x][y]` (out-of-range reads default to `false`; see module header). -/
def FieldGrid.vertAt (g : FieldGrid) (x y : Nat) : Bool :=
  (g.vert.getD x []).getD y false

/-- `direct_neighbor_tiles`: geometric neighbors of a tile, up to 4,
in the source's append order. -/
def directNeighborTiles (g : FieldGrid) (t : Tile) : List Tile :=
  (if 0 < t.1 then [(t.1 - 1, t.2)] else []) ++
  (if t.1 < g.numX - 1 then [(t.1 + 1, t.2)] else []) ++
  (if 0 < t.2 then [(t.1, t.2 - 1)] else []) ++
  (if t.2 < g.numY - 1 then [(t.1, t.2 + 1)] else [])

/-- `connected_direct_neighbor_tiles`: neighbors joined by a closed
(`false`) gap, in the source's append order. -/
def connectedDirectNeighborTiles (g : FieldGrid) (t : Tile) : List Tile :=
  (if 0 < t.1 ∧ ¬g.horizAt t.2 t.1 then [(t.1 - 1, t.2)] else []) ++
  (if t.1 < g.numX - 1 ∧ ¬g.horizAt t.2 (t.1 + 1) then [(t.1 + 1, t.2)] else []) ++
  (if 0 < t.2 ∧ ¬g.vertAt t.1 t.2 then [(t.1, t.2 - 1)] else []) ++
  (if t.2 < g.numY - 1 ∧ ¬g.vertAt t.1 (t.2 + 1) then [(t.1, t.2 + 1)] else [])

/-- `visited_tiles.add(tile)`: set insertion, modelled on lists up to
membership. -/
def ffVisited (visited : List Tile) (t : Tile) : List Tile :=
  if t ∈ visited then visited else t :: visited

/-- `[n for n in neighbors if n not in visited_tiles]` (the filter runs after
the popped tile has been added to `visited_tiles`). -/
def ffPushed (g : FieldGrid) (visited2 : List Tile) (t : Tile) : List Tile :=
  (connectedDirectNeighborTiles g t).filter (fun n => decide (n ∉ visited2))

/-- The body of `floodfill_piece_from`'s `while` loop, with fuel.
The Python stack appends at the end and pops from the end, so the model
pops the last element; `visited_tiles` is a set, modelled as a list whose
membership is what matters.  Note the source appends the popped tile to
`piece` unconditionally, even when it was already visited. -/
def floodfillAux (g : FieldGrid) :
    Nat → List Tile → List Tile → List Tile → Option (List Tile × List Tile)
  | _, visited, [], piece => some (piece, visited)
  | 0, _, _ :: _, _ => none
  | fuel + 1, visited, s :: ss, piece =>
      floodfillAux g fuel
        (ffVisited visited ((s :: ss).getLast (List.cons_ne_nil s ss)))
        ((s :: ss).dropLast ++
          ffPushed g (ffVisited visited ((s :: ss).getLast (List.cons_ne_nil s ss)))
            ((s :: ss).getLast (List.cons_ne_nil s ss)))
        (piece ++ [(s :: ss).getLast (List.cons_ne_nil s ss)])

/-- Fuel sufficient for `floodfillAux` started from a single tile
(proved in `floodfillAux_isSome`). -/
def floodfillFuel (g : FieldGrid) : Nat := 10 * (g.numX * g.numY) + 10

/-- `floodfill_piece_from`, returning the piece and the updated
`visited_tiles`. -/
def floodfillPieceFrom (g : FieldGrid) (visited : List Tile) (start : Tile) :
    Option (List Tile × List Tile) :=
  floodfillAux g (floodfillFuel g) visited [start] []

/-- The row-major scan order of the decomposition loop:
outer loop over `x`, inner loop over `y`. -/
def scanTiles (g : FieldGrid) : List Tile :=
  (List.range g.numX).flatMap (fun x => (List.range g.numY).map (fun y => (x, y)))

/-- The decomposition loop over the scan order, accumulating pieces and the
shared `visited_tiles`. -/
def decomposeAux (g : FieldGrid) :
    List Tile → List Tile → List (List Tile) → Option (List (List Tile) × List Tile)
  | [], visited, pieces => some (pieces, visited)
  | t :: ts, visited, pieces =>
      if t ∈ visited then decomposeAux g ts visited pieces
      else
        match floodfillPieceFrom g visited t with
        | none => none
        | some (piece, visited2) => decomposeAux g ts visited2 (pieces ++ [piece])

/-- `pieces`: the list of pieces produced by the floodfill decomposition. -/
def decompose (g : FieldGrid) : Option (List (List Tile)) :=
  (decomposeAux g (scanTiles g) [] []).map (·.1)

/-- `tile_to_piece_id_map`: a dict comprehension in which a later entry for
the same tile overwrites an earlier one, hence the *last* piece containing
the tile wins. -/
def tileToPieceId (pieces : List (List Tile)) (t : Tile) : Option Nat :=
  ((pieces.enum.filter (fun p => decide (t ∈ p.2))).map (·.1)).getLast?

/-! ## Basic facts about the grid, the scan order and the neighbor maps -/

/-- A tile coordinate lies inside the tile grid. -/
def InBox (g : FieldGrid) (t : Tile) : Prop := t.1 < g.numX ∧ t.2 < g.numY

instance (g : FieldGrid) (t : Tile) : Decidable (InBox g t) := by
  unfold InBox; infer_instance

lemma mem_scanTiles {g : FieldGrid} {t : Tile} : t ∈ scanTiles g ↔ InBox g t := by
  obtain ⟨a, b⟩ := t
  simp [scanTiles, InBox, List.mem_flatMap]

lemma scanTiles_nodup (g : FieldGrid) : (scanTiles g).Nodup := by
  rw [scanTiles, List.nodup_flatMap]
  refine ⟨fun x _ => (List.nodup_range _).map ?_, ?_⟩
  · intro a b h; simpa using h
  · apply List.Pairwise.imp ?_ (List.nodup_range g.numX)
    intro a b hab
    simp only [Function.onFun, List.disjoint_left]
    rintro ⟨c, d⟩ hc hd
    simp only [List.mem_map, List.mem_range] at hc hd
    obtain ⟨y, _, hy⟩ := hc
    obtain ⟨z, _, hz⟩ := hd
    cases hy; cases hz; exact hab rfl

lemma length_scanTiles (g : FieldGrid) : (scanTiles g).length = g.numX * g.numY := by
  simp [scanTiles, List.length_flatMap, Function.comp_def, List.map_const]

lemma connectedDirectNeighborTiles_inBox {g : FieldGrid} {t n : Tile}
    (ht : InBox g t) (hn : n ∈ connectedDirectNeighborTiles g t) : InBox g n := by
  obtain ⟨x, y⟩ := t
  obtain ⟨hx, hy⟩ := ht
  simp only [connectedDirectNeighborTiles, List.mem_append] at hn
  rcases hn with ((h | h) | h) | h <;> split_ifs at h <;>
    simp only [List.mem_singleton, List.not_mem_nil] at h <;> subst h <;>
    exact ⟨by omega, by omega⟩

lemma connectedDirectNeighborTiles_length_le (g : FieldGrid) (t : Tile) :
    (connectedDirectNeighborTiles g t).length ≤ 4 := by
  unfold connectedDirectNeighborTiles
  split_ifs <;> simp

/-! ## Fuel sufficiency for the floodfill -/

/-- Number of not-yet-visited tiles of the grid. -/
def unvisitedCount (g : FieldGrid) (visited : List Tile) : Nat :=
  ((scanTiles g).filter (fun t => decide (t ∉ visited))).length

lemma unvisitedCount_le (g : FieldGrid) (visited : List Tile) :
    unvisitedCount g visited ≤ g.numX * g.numY := by
  rw [← length_scanTiles]
  exact List.length_filter_le _ _

lemma length_filter_cons_eq (l : List Tile) (visited : List Tile) (t : Tile)
    (hl : l.Nodup) (htl : t ∈ l) (htv : t ∉ visited) :
    (l.filter (fun x => decide (x ∉ t :: visited))).length + 1
      = (l.filter (fun x => decide (x ∉ visited))).length := by
  have h1 : l.filter (fun x => decide (x ∉ t :: visited))
      = (l.filter (fun x => decide (x ∉ visited))).filter (fun x => x != t) := by
    rw [List.filter_filter]
    apply List.filter_congr
    intro x _
    by_cases h2 : x = t <;> by_cases h3 : x ∈ visited <;>
      simp [h2, h3, List.mem_cons, htv]
  have hm : (l.filter (fun x => decide (x ∉ visited))).Nodup := hl.filter _
  have htm : t ∈ l.filter (fun x => decide (x ∉ visited)) :=
    List.mem_filter.mpr ⟨htl, by simpa⟩
  have hpos := List.length_pos_of_mem htm
  rw [h1, ← List.Nodup.erase_eq_filter hm t, List.length_erase_of_mem htm]
  omega

lemma unvisitedCount_cons {g : FieldGrid} {visited : List Tile} {t : Tile}
    (htb : InBox g t) (htv : t ∉ visited) :
    unvisitedCount g (t :: visited) + 1 = unvisitedCount g visited := by
  unfold unvisitedCount
  exact length_filter_cons_eq _ _ _ (scanTiles_nodup g) (mem_scanTiles.mpr htb) htv

/-- `4` when the next tile to be popped is already visited, else `0`:
one-step-decrease correction term of the termination potential. -/
def ffInd (visited stack : List Tile) : Nat :=
  match stack.getLast? with
  | none => 0
  | some t => if t ∈ visited then 4 else 0

lemma ffInd_le (visited stack : List Tile) : ffInd visited stack ≤ 4 := by
  unfold ffInd
  split
  · omega
  · split <;> omega

/-- Termination potential of the floodfill loop: strictly decreases at
every iteration. -/
def ffPhi (g : FieldGrid) (visited stack : List Tile) : Nat :=
  10 * unvisitedCount g visited + stack.length + ffInd visited stack

lemma ffPushed_length_le (g : FieldGrid) (visited2 : List Tile) (t : Tile) :
    (ffPushed g visited2 t).length ≤ 4 :=
  le_trans (List.length_filter_le _ _) (connectedDirectNeighborTiles_length_le g t)

lemma ffPushed_not_mem {g : FieldGrid} {visited2 : List Tile} {t n : Tile}
    (h : n ∈ ffPushed g visited2 t) : n ∉ visited2 := by
  have := (List.mem_filter.mp h).2
  simpa using this

lemma ffPushed_subset {g : FieldGrid} {visited2 : List Tile} {t : Tile} :
    ffPushed g visited2 t ⊆ connectedDirectNeighborTiles g t :=
  fun _ h => List.mem_of_mem_filter h

theorem floodfillAux_isSome (g : FieldGrid) :
    ∀ fuel visited stack piece, (∀ t ∈ stack, InBox g t) →
      ffPhi g visited stack < fuel →
      (floodfillAux g fuel visited stack piece).isSome := by
  intro fuel
  induction fuel with
  | zero => intro visited stack piece _ hphi; exact absurd hphi (Nat.not_lt_zero _)
  | succ fuel ih =>
    intro visited stack piece hbox hphi
    match stack with
    | [] => simp [floodfillAux]
    | s :: ss =>
      rw [floodfillAux]
      set t := (s :: ss).getLast (List.cons_ne_nil s ss) with htdef
      have htmem : t ∈ s :: ss := List.getLast_mem _
      have htb : InBox g t := hbox t htmem
      have hglast : (s :: ss).getLast? = some t :=
        List.getLast?_eq_getLast _ (List.cons_ne_nil s ss)
      have hboxnew : ∀ u ∈ (s :: ss).dropLast ++ ffPushed g (ffVisited visited t) t,
          InBox g u := by
        intro u hu
        rcases List.mem_append.mp hu with h | h
        · exact hbox u (List.dropLast_subset _ h)
        · exact connectedDirectNeighborTiles_inBox htb (ffPushed_subset h)
      apply ih _ _ _ hboxnew
      have hlen : ((s :: ss).dropLast ++ ffPushed g (ffVisited visited t) t).length
          = ss.length + (ffPushed g (ffVisited visited t) t).length := by
        simp [List.length_dropLast]
      have hpl : (ffPushed g (ffVisited visited t) t).length ≤ 4 := ffPushed_length_le g _ t
      by_cases hv : t ∈ visited
      · -- already-visited pop: `visited` is unchanged
        have hvis : ffVisited visited t = visited := by simp [ffVisited, hv]
        rw [hvis] at hlen hpl ⊢
        have hindold : ffInd visited (s :: ss) = 4 := by
          unfold ffInd
          rw [hglast]
          simp [hv]
        unfold ffPhi at hphi ⊢
        rw [hindold] at hphi
        rw [hlen]
        simp only [List.length_cons] at hphi
        by_cases hp : ffPushed g visited t = []
        · -- no pushes: stack shrinks
          have hindnew : ffInd visited ((s :: ss).dropLast ++ ffPushed g visited t) ≤ 4 :=
            ffInd_le _ _
          have : (ffPushed g visited t).length = 0 := by rw [hp]; rfl
          omega
        · -- pushes: the new top of the stack is unvisited, so the
          -- correction term drops from 4 to 0
          have hindnew : ffInd visited ((s :: ss).dropLast ++ ffPushed g visited t) = 0 := by
            unfold ffInd
            rw [List.getLast?_append_of_ne_nil _ hp,
              List.getLast?_eq_getLast _ hp]
            have : (ffPushed g visited t).getLast hp ∉ visited :=
              ffPushed_not_mem (List.getLast_mem hp)
            simp [this]
          rw [hindnew]
          omega
      · -- fresh pop: the unvisited count drops
        have hvis : ffVisited visited t = t :: visited := by simp [ffVisited, hv]
        have hcount : unvisitedCount g (t :: visited) + 1 = unvisitedCount g visited :=
          unvisitedCount_cons htb hv
        have hindold : ffInd visited (s :: ss) = 0 := by
          unfold ffInd
          rw [hglast]
          simp [hv]
        rw [hvis] at hlen hpl ⊢
        have hindnew : ffInd (t :: visited)
            ((s :: ss).dropLast ++ ffPushed g (t :: visited) t) ≤ 4 :=
          ffInd_le _ _
        unfold ffPhi at hphi ⊢
        rw [hindold] at hphi
        rw [hlen]
        simp only [List.length_cons] at hphi
        omega

theorem floodfillPieceFrom_isSome (g : FieldGrid) (visited : List Tile) (start : Tile)
    (hb : InBox g start) : (floodfillPieceFrom g visited start).isSome := by
  apply floodfillAux_isSome g _ _ _ _ (by intro u hu; simp at hu; subst hu; exact hb)
  unfold ffPhi floodfillFuel
  have h1 := unvisitedCount_le g visited
  have h2 := ffInd_le visited [start]
  simp only [List.length_singleton]
  omega

theorem decomposeAux_isSome (g : FieldGrid) :
    ∀ todo visited pieces, (∀ t ∈ todo, InBox g t) →
      (decomposeAux g todo visited pieces).isSome := by
  intro todo
  induction todo with
  | nil => intro visited pieces _; simp [decomposeAux]
  | cons t ts ih =>
    intro visited pieces hbox
    rw [decomposeAux]
    split_ifs with hmem
    · exact ih _ _ (fun u hu => hbox u (List.mem_cons_of_mem _ hu))
    · have hsome := floodfillPieceFrom_isSome g visited t (hbox t (List.mem_cons_self t ts))
      obtain ⟨⟨piece, visited2⟩, hfl⟩ := Option.isSome_iff_exists.mp hsome
      rw [hfl]
      exact ih _ _ (fun u hu => hbox u (List.mem_cons_of_mem _ hu))

theorem decompose_isSome (g : FieldGrid) : (decompose g).isSome := by
  unfold decompose
  have h := decomposeAux_isSome g (scanTiles g) [] [] (fun t ht => mem_scanTiles.mp ht)
  obtain ⟨p, hp⟩ := Option.isSome_iff_exists.mp h
  simp [hp]

/-! ## Connectivity relation and floodfill invariants -/

/-- One step from a tile to a neighbor across a closed (`false`) gap —
the path-step notion of the specification. -/
def GapStep (g : FieldGrid) (a b : Tile) : Prop :=
  b ∈ connectedDirectNeighborTiles g a

/-- A path of tiles in which every step crosses a gap whose stored bridge
state is `false`. -/
def Reach (g : FieldGrid) : Tile → Tile → Prop :=
  Relation.ReflTransGen (GapStep g)

lemma mem_ite_singleton {c : Prop} [Decidable c] {a n : Tile} :
    (n ∈ if c then [a] else []) ↔ c ∧ n = a := by
  split_ifs with h <;> simp [h]

lemma mem_connectedDirectNeighborTiles {g : FieldGrid} {x y : Nat} {n : Tile} :
    n ∈ connectedDirectNeighborTiles g (x, y) ↔
      (0 < x ∧ ¬g.horizAt y x ∧ n = (x - 1, y)) ∨
      (x < g.numX - 1 ∧ ¬g.horizAt y (x + 1) ∧ n = (x + 1, y)) ∨
      (0 < y ∧ ¬g.vertAt x y ∧ n = (x, y - 1)) ∨
      (y < g.numY - 1 ∧ ¬g.vertAt x (y + 1) ∧ n = (x, y + 1)) := by
  simp only [connectedDirectNeighborTiles, List.mem_append, mem_ite_singleton]
  tauto

lemma mem_directNeighborTiles {g : FieldGrid} {x y : Nat} {n : Tile} :
    n ∈ directNeighborTiles g (x, y) ↔
      (0 < x ∧ n = (x - 1, y)) ∨ (x < g.numX - 1 ∧ n = (x + 1, y)) ∨
      (0 < y ∧ n = (x, y - 1)) ∨ (y < g.numY - 1 ∧ n = (x, y + 1)) := by
  simp only [directNeighborTiles, List.mem_append, mem_ite_singleton]
  tauto

lemma directNeighborTiles_inBox {g : FieldGrid} {t n : Tile}
    (ht : InBox g t) (hn : n ∈ directNeighborTiles g t) : InBox g n := by
  obtain ⟨x, y⟩ := t
  obtain ⟨hx, hy⟩ := ht
  rcases mem_directNeighborTiles.mp hn with ⟨h, rfl⟩ | ⟨h, rfl⟩ | ⟨h, rfl⟩ | ⟨h, rfl⟩ <;>
    exact ⟨by omega, by omega⟩

lemma gapStep_symm {g : FieldGrid} {a b : Tile} (ha : InBox g a) (h : GapStep g a b) :
    GapStep g b a := by
  obtain ⟨x, y⟩ := a
  obtain ⟨hx, hy⟩ := ha
  unfold GapStep at h ⊢
  rcases mem_connectedDirectNeighborTiles.mp h with
    ⟨h1, h2, rfl⟩ | ⟨h1, h2, rfl⟩ | ⟨h1, h2, rfl⟩ | ⟨h1, h2, rfl⟩ <;>
    rw [mem_connectedDirectNeighborTiles]
  · refine Or.inr (Or.inl ⟨by omega, ?_, by simp; omega⟩)
    rwa [Nat.sub_add_cancel h1]
  · exact Or.inl ⟨by omega, by simpa using h2, by simp⟩
  · refine Or.inr (Or.inr (Or.inr ⟨by omega, ?_, by simp; omega⟩))
    rwa [Nat.sub_add_cancel h1]
  · exact Or.inr (Or.inr (Or.inl ⟨by omega, by simpa using h2, by simp⟩))

lemma reach_inBox {g : FieldGrid} {a b : Tile} (ha : InBox g a) (h : Reach g a b) :
    InBox g b := by
  induction h with
  | refl => exact ha
  | tail _ hstep ih => exact connectedDirectNeighborTiles_inBox ih hstep

lemma reach_symm {g : FieldGrid} {a b : Tile} (ha : InBox g a) (h : Reach g a b) :
    Reach g b a := by
  induction h with
  | refl => exact Relation.ReflTransGen.refl
  | tail hr hstep ih =>
      exact Relation.ReflTransGen.head (gapStep_symm (reach_inBox ha hr) hstep) ih

/-- The visited set is closed under closed-gap adjacency. -/
def ClosedUnder (g : FieldGrid) (visited : List Tile) : Prop :=
  ∀ x ∈ visited, ∀ n ∈ connectedDirectNeighborTiles g x, n ∈ visited

/-- Mid-floodfill invariant: every closed-gap neighbor of a visited tile is
either visited or still on the stack. -/
def StackInv (g : FieldGrid) (visited stack : List Tile) : Prop :=
  ∀ x ∈ visited, ∀ n ∈ connectedDirectNeighborTiles g x, n ∈ visited ∨ n ∈ stack

lemma mem_ffVisited_self (visited : List Tile) (t : Tile) : t ∈ ffVisited visited t := by
  unfold ffVisited
  split_ifs with h
  · exact h
  · exact List.mem_cons_self t visited

lemma subset_ffVisited (visited : List Tile) (t : Tile) :
    ∀ x ∈ visited, x ∈ ffVisited visited t := by
  intro x hx
  unfold ffVisited
  split_ifs
  · exact hx
  · exact List.mem_cons_of_mem _ hx

lemma mem_ffVisited {visited : List Tile} {t x : Tile} (h : x ∈ ffVisited visited t) :
    x = t ∨ x ∈ visited := by
  unfold ffVisited at h
  split_ifs at h with hc
  · exact Or.inr h
  · exact List.mem_cons.mp h

lemma dropLast_append_getLast_cons (s : Tile) (ss : List Tile) :
    (s :: ss).dropLast ++ [(s :: ss).getLast (List.cons_ne_nil s ss)] = s :: ss :=
  List.dropLast_append_getLast (List.cons_ne_nil s ss)

/-- Core structural facts about a completed floodfill run: the visited set
grows, the piece grows by appending, the new visited tiles are exactly the
newly appended piece entries. -/
theorem floodfillAux_base (g : FieldGrid) :
    ∀ fuel visited stack piece p v,
      floodfillAux g fuel visited stack piece = some (p, v) →
      (∀ x ∈ visited, x ∈ v) ∧ piece.IsPrefix p ∧
      (∀ x ∈ v, x ∈ visited ∨ x ∈ p) ∧ (∀ x ∈ p, x ∈ piece ∨ x ∈ v) := by
  intro fuel
  induction fuel with
  | zero =>
    intro visited stack piece p v hres
    cases stack with
    | nil =>
      simp only [floodfillAux, Option.some.injEq, Prod.mk.injEq] at hres
      obtain ⟨rfl, rfl⟩ := hres
      exact ⟨fun x h => h, List.prefix_refl _, fun x h => Or.inl h, fun x h => Or.inl h⟩
    | cons s ss => simp [floodfillAux] at hres
  | succ fuel ih =>
    intro visited stack piece p v hres
    cases stack with
    | nil =>
      simp only [floodfillAux, Option.some.injEq, Prod.mk.injEq] at hres
      obtain ⟨rfl, rfl⟩ := hres
      exact ⟨fun x h => h, List.prefix_refl _, fun x h => Or.inl h, fun x h => Or.inl h⟩
    | cons s ss =>
      rw [floodfillAux] at hres
      set t := (s :: ss).getLast (List.cons_ne_nil s ss) with htdef
      obtain ⟨hmono, hpref, hv1, hp1⟩ := ih _ _ _ _ _ hres
      refine ⟨?_, ?_, ?_, ?_⟩
      · intro x hx
        exact hmono x (subset_ffVisited visited t x hx)
      · exact (List.prefix_append piece [t]).trans hpref
      · intro x hx
        rcases hv1 x hx with h | h
        · rcases mem_ffVisited h with rfl | h
          · exact Or.inr (hpref.subset (by simp))
          · exact Or.inl h
        · exact Or.inr h
      · intro x hx
        rcases hp1 x hx with h | h
        · rcases List.mem_append.mp h with h | h
          · exact Or.inl h
          · rw [List.mem_singleton] at h
            subst h
            exact Or.inr (hmono t (mem_ffVisited_self visited t))
        · exact Or.inr h

/-- Every tile of the produced piece is reachable from tiles the run
started from. -/
theorem floodfillAux_reach (g : FieldGrid) (start : Tile) :
    ∀ fuel visited stack piece p v,
      floodfillAux g fuel visited stack piece = some (p, v) →
      (∀ x ∈ stack, Reach g start x) → (∀ x ∈ piece, Reach g start x) →
      ∀ x ∈ p, Reach g start x := by
  intro fuel
  induction fuel with
  | zero =>
    intro visited stack piece p v hres hstack hpiece
    cases stack with
    | nil =>
      simp only [floodfillAux, Option.some.injEq, Prod.mk.injEq] at hres
      obtain ⟨rfl, rfl⟩ := hres
      exact hpiece
    | cons s ss => simp [floodfillAux] at hres
  | succ fuel ih =>
    intro visited stack piece p v hres hstack hpiece
    cases stack with
    | nil =>
      simp only [floodfillAux, Option.some.injEq, Prod.mk.injEq] at hres
      obtain ⟨rfl, rfl⟩ := hres
      exact hpiece
    | cons s ss =>
      rw [floodfillAux] at hres
      set t := (s :: ss).getLast (List.cons_ne_nil s ss) with htdef
      have htreach : Reach g start t := hstack t (List.getLast_mem _)
      apply ih _ _ _ _ _ hres
      · intro x hx
        rcases List.mem_append.mp hx with h | h
        · exact hstack x (List.dropLast_subset _ h)
        · exact Relation.ReflTransGen.tail htreach (ffPushed_subset h)
      · intro x hx
        rcases List.mem_append.mp hx with h | h
        · exact hpiece x h
        · rw [List.mem_singleton] at h
          subst h
          exact htreach

/-- No tile of the produced piece was visited before the run started. -/
theorem floodfillAux_fresh (g : FieldGrid) (visited0 : List Tile) :
    ∀ fuel visited stack piece p v,
      floodfillAux g fuel visited stack piece = some (p, v) →
      (∀ x ∈ visited0, x ∈ visited) →
      (∀ x ∈ stack, x ∉ visited0) → (∀ x ∈ piece, x ∉ visited0) →
      ∀ x ∈ p, x ∉ visited0 := by
  intro fuel
  induction fuel with
  | zero =>
    intro visited stack piece p v hres hsub hstack hpiece
    cases stack with
    | nil =>
      simp only [floodfillAux, Option.some.injEq, Prod.mk.injEq] at hres
      obtain ⟨rfl, rfl⟩ := hres
      exact hpiece
    | cons s ss => simp [floodfillAux] at hres
  | succ fuel ih =>
    intro visited stack piece p v hres hsub hstack hpiece
    cases stack with
    | nil =>
      simp only [floodfillAux, Option.some.injEq, Prod.mk.injEq] at hres
      obtain ⟨rfl, rfl⟩ := hres
      exact hpiece
    | cons s ss =>
      rw [floodfillAux] at hres
      set t := (s :: ss).getLast (List.cons_ne_nil s ss) with htdef
      apply ih _ _ _ _ _ hres
      · intro x hx
        exact subset_ffVisited visited t x (hsub x hx)
      · intro x hx
        rcases List.mem_append.mp hx with h | h
        · exact hstack x (List.dropLast_subset _ h)
        · intro hx0
          exact ffPushed_not_mem h (subset_ffVisited visited t x (hsub x hx0))
      · intro x hx
        rcases List.mem_append.mp hx with h | h
        · exact hpiece x h
        · rw [List.mem_singleton] at h
          subst h
          exact hstack t (List.getLast_mem _)

/-- When a floodfill run finishes, the visited set is closed under
closed-gap adjacency. -/
theorem floodfillAux_closed (g : FieldGrid) :
    ∀ fuel visited stack piece p v,
      floodfillAux g fuel visited stack piece = some (p, v) →
      StackInv g visited stack → ClosedUnder g v := by
  intro fuel
  induction fuel with
  | zero =>
    intro visited stack piece p v hres hinv
    cases stack with
    | nil =>
      simp only [floodfillAux, Option.some.injEq, Prod.mk.injEq] at hres
      obtain ⟨rfl, rfl⟩ := hres
      intro x hx n hn
      rcases hinv x hx n hn with h | h
      · exact h
      · cases h
    | cons s ss => simp [floodfillAux] at hres
  | succ fuel ih =>
    intro visited stack piece p v hres hinv
    cases stack with
    | nil =>
      simp only [floodfillAux, Option.some.injEq, Prod.mk.injEq] at hres
      obtain ⟨rfl, rfl⟩ := hres
      intro x hx n hn
      rcases hinv x hx n hn with h | h
      · exact h
      · cases h
    | cons s ss =>
      rw [floodfillAux] at hres
      set t := (s :: ss).getLast (List.cons_ne_nil s ss) with htdef
      apply ih _ _ _ _ _ hres
      intro x hx n hn
      rcases mem_ffVisited hx with rfl | hx2
      · by_cases hnv : n ∈ ffVisited visited t
        · exact Or.inl hnv
        · refine Or.inr (List.mem_append_right _ ?_)
          exact List.mem_filter.mpr ⟨hn, by simpa using hnv⟩
      · rcases hinv x hx2 n hn with h | h
        · exact Or.inl (subset_ffVisited visited t n h)
        · rw [← dropLast_append_getLast_cons s ss] at h
          rcases List.mem_append.mp h with h | h
          · exact Or.inr (List.mem_append_left _ h)
          · rw [List.mem_singleton] at h
            subst h
            exact Or.inl (mem_ffVisited_self visited t)

/-- Every tile of the produced piece lies inside the tile grid. -/
theorem floodfillAux_box (g : FieldGrid) :
    ∀ fuel visited stack piece p v,
      floodfillAux g fuel visited stack piece = some (p, v) →
      (∀ x ∈ stack, InBox g x) → (∀ x ∈ piece, InBox g x) →
      ∀ x ∈ p, InBox g x := by
  intro fuel
  induction fuel with
  | zero =>
    intro visited stack piece p v hres hstack hpiece
    cases stack with
    | nil =>
      simp only [floodfillAux, Option.some.injEq, Prod.mk.injEq] at hres
      obtain ⟨rfl, rfl⟩ := hres
      exact hpiece
    | cons s ss => simp [floodfillAux] at hres
  | succ fuel ih =>
    intro visited stack piece p v hres hstack hpiece
    cases stack with
    | nil =>
      simp only [floodfillAux, Option.some.injEq, Prod.mk.injEq] at hres
      obtain ⟨rfl, rfl⟩ := hres
      exact hpiece
    | cons s ss =>
      rw [floodfillAux] at hres
      set t := (s :: ss).getLast (List.cons_ne_nil s ss) with htdef
      have htb : InBox g t := hstack t (List.getLast_mem _)
      apply ih _ _ _ _ _ hres
      · intro x hx
        rcases List.mem_append.mp hx with h | h
        · exact hstack x (List.dropLast_subset _ h)
        · exact connectedDirectNeighborTiles_inBox htb (ffPushed_subset h)
      · intro x hx
        rcases List.mem_append.mp hx with h | h
        · exact hpiece x h
        · rw [List.mem_singleton] at h
          subst h
          exact htb

lemma floodfillAux_singleton (g : FieldGrid) (fuel : Nat) (visited : List Tile) (t : Tile) :
    floodfillAux g (fuel + 1) visited [t] [] =
      floodfillAux g fuel (ffVisited visited t) (ffPushed g (ffVisited visited t) t) [t] :=
  rfl

/-! ## The decomposition invariant -/

/-- Membership in the union of a list of pieces. -/
def UnionMem (pieces : List (List Tile)) (x : Tile) : Prop := ∃ p ∈ pieces, x ∈ p

/-- Invariant tying `visited_tiles` and the accumulated `pieces` together
across iterations of the decomposition loop. -/
structure DecompState (g : FieldGrid) (visited : List Tile) (pieces : List (List Tile)) :
    Prop where
  vis_iff : ∀ x, x ∈ visited ↔ UnionMem pieces x
  closed : ClosedUnder g visited
  inbox : ∀ p ∈ pieces, ∀ x ∈ p, InBox g x
  heads : ∀ p ∈ pieces, ∃ s, p.head? = some s ∧ ∀ x ∈ p, Reach g s x
  disj : List.Pairwise (fun p q => ∀ x ∈ p, x ∉ q) pieces
  prefclosed : ∀ k x, UnionMem (pieces.take k) x →
    ∀ n ∈ connectedDirectNeighborTiles g x, UnionMem (pieces.take k) n

/-- Effect of one floodfill launched from a fresh tile on the
decomposition invariant. -/
theorem floodfillPieceFrom_step {g : FieldGrid} {visited : List Tile}
    {pieces : List (List Tile)} {t : Tile} {piece v2 : List Tile}
    (hst : DecompState g visited pieces) (htv : t ∉ visited) (htb : InBox g t)
    (hres : floodfillPieceFrom g visited t = some (piece, v2)) :
    DecompState g v2 (pieces ++ [piece]) ∧ (∀ x ∈ visited, x ∈ v2) ∧ t ∈ piece ∧
      piece.head? = some t := by
  have hbase := floodfillAux_base g _ _ _ _ _ _ hres
  obtain ⟨hmono, -, hv1, hp1⟩ := hbase
  have hp2 : ∀ x ∈ piece, x ∈ v2 := by
    intro x hx
    rcases hp1 x hx with h | h
    · cases h
    · exact h
  have hreach : ∀ x ∈ piece, Reach g t x := by
    apply floodfillAux_reach g t _ _ _ _ _ _ hres
    · intro x hx
      rw [List.mem_singleton] at hx
      subst hx
      exact Relation.ReflTransGen.refl
    · intro x hx
      cases hx
  have hfresh : ∀ x ∈ piece, x ∉ visited := by
    apply floodfillAux_fresh g visited _ _ _ _ _ _ hres (fun x h => h)
    · intro x hx
      rw [List.mem_singleton] at hx
      subst hx
      exact htv
    · intro x hx
      cases hx
  have hbox : ∀ x ∈ piece, InBox g x := by
    apply floodfillAux_box g _ _ _ _ _ _ hres
    · intro x hx
      rw [List.mem_singleton] at hx
      subst hx
      exact htb
    · intro x hx
      cases hx
  have hhead : piece.head? = some t := by
    have hfl : floodfillAux g ((10 * (g.numX * g.numY) + 9) + 1) visited [t] []
        = some (piece, v2) := hres
    rw [floodfillAux_singleton] at hfl
    obtain ⟨-, hpref, -, -⟩ := floodfillAux_base g _ _ _ _ _ _ hfl
    obtain ⟨rest, hr⟩ := hpref
    rw [← hr]
    rfl
  have hclosed : ClosedUnder g v2 := by
    apply floodfillAux_closed g _ _ _ _ _ _ hres
    intro x hx n hn
    exact Or.inl (hst.closed x hx n hn)
  have hvis2 : ∀ x, x ∈ v2 ↔ UnionMem (pieces ++ [piece]) x := by
    intro x
    constructor
    · intro hx
      rcases hv1 x hx with h | h
      · obtain ⟨p, hp, hxp⟩ := (hst.vis_iff x).mp h
        exact ⟨p, List.mem_append_left _ hp, hxp⟩
      · exact ⟨piece, List.mem_append_right _ (List.mem_singleton_self _), h⟩
    · rintro ⟨p, hp, hxp⟩
      rcases List.mem_append.mp hp with h | h
      · exact hmono x ((hst.vis_iff x).mpr ⟨p, h, hxp⟩)
      · rw [List.mem_singleton] at h
        subst h
        exact hp2 x hxp
  have htpiece : t ∈ piece := by
    have : piece.head? = some t := hhead
    cases piece with
    | nil => cases this
    | cons a as =>
      simp only [List.head?_cons, Option.some.injEq] at this
      subst this
      exact List.mem_cons_self _ _
  refine ⟨⟨hvis2, hclosed, ?_, ?_, ?_, ?_⟩, hmono, htpiece, hhead⟩
  · intro p hp x hx
    rcases List.mem_append.mp hp with h | h
    · exact hst.inbox p h x hx
    · rw [List.mem_singleton] at h
      subst h
      exact hbox x hx
  · intro p hp
    rcases List.mem_append.mp hp with h | h
    · exact hst.heads p h
    · rw [List.mem_singleton] at h
      subst h
      exact ⟨t, hhead, hreach⟩
  · rw [List.pairwise_append]
    refine ⟨hst.disj, List.pairwise_singleton _ _, ?_⟩
    intro p hp q hq x hxp
    rw [List.mem_singleton] at hq
    subst hq
    intro hxq
    exact hfresh x hxq ((hst.vis_iff x).mpr ⟨p, hp, hxp⟩)
  · intro k x hx n hn
    by_cases hk : k ≤ pieces.length
    · rw [List.take_append_of_le_length hk] at hx ⊢
      exact hst.prefclosed k x hx n hn
    · have hlen : (pieces ++ [piece]).length ≤ k := by
        simp only [List.length_append, List.length_singleton]
        omega
      rw [List.take_of_length_le hlen] at hx ⊢
      have hxv : x ∈ v2 := (hvis2 x).mpr hx
      exact (hvis2 n).mp (hclosed x hxv n hn)

/-- Main induction over the decomposition loop. -/
theorem decomposeAux_state (g : FieldGrid) :
    ∀ todo visited pieces pieces2 v2,
      decomposeAux g todo visited pieces = some (pieces2, v2) →
      DecompState g visited pieces →
      (∀ t ∈ todo, InBox g t) →
      DecompState g v2 pieces2 ∧ pieces.IsPrefix pieces2 ∧
        (∀ t ∈ todo, UnionMem pieces2 t) ∧ (∀ x ∈ visited, x ∈ v2) := by
  intro todo
  induction todo with
  | nil =>
    intro visited pieces pieces2 v2 hres hst _
    simp only [decomposeAux, Option.some.injEq, Prod.mk.injEq] at hres
    obtain ⟨rfl, rfl⟩ := hres
    exact ⟨hst, List.prefix_refl _, fun t ht => absurd ht (List.not_mem_nil t),
      fun x h => h⟩
  | cons t ts ih =>
    intro visited pieces pieces2 v2 hres hst hbox
    rw [decomposeAux] at hres
    split_ifs at hres with hmem
    · obtain ⟨hst2, hpref, hcov, hmono⟩ :=
        ih _ _ _ _ hres hst (fun u hu => hbox u (List.mem_cons_of_mem _ hu))
      refine ⟨hst2, hpref, ?_, hmono⟩
      intro u hu
      rcases List.mem_cons.mp hu with rfl | hu
      · obtain ⟨p, hp, hup⟩ := (hst.vis_iff u).mp hmem
        exact ⟨p, hpref.subset hp, hup⟩
      · exact hcov u hu
    · cases hfl : floodfillPieceFrom g visited t with
      | none => rw [hfl] at hres; cases hres
      | some pr =>
        obtain ⟨piece, vmid⟩ := pr
        rw [hfl] at hres
        obtain ⟨hst2, hmid, htpiece, -⟩ :=
          floodfillPieceFrom_step hst hmem (hbox t (List.mem_cons_self t ts)) hfl
        obtain ⟨hst3, hpref, hcov, hmono⟩ :=
          ih _ _ _ _ hres hst2 (fun u hu => hbox u (List.mem_cons_of_mem _ hu))
        have hprefall : pieces.IsPrefix pieces2 :=
          (List.prefix_append pieces [piece]).trans hpref
        refine ⟨hst3, hprefall, ?_, fun x hx => hmono x (hmid x hx)⟩
        intro u hu
        rcases List.mem_cons.mp hu with rfl | hu
        · exact ⟨piece, hpref.subset (List.mem_append_right _ (List.mem_singleton_self _)),
            htpiece⟩
        · exact hcov u hu

/-- Initial decomposition invariant. -/
theorem decompState_init (g : FieldGrid) : DecompState g [] [] := by
  refine ⟨?_, ?_, ?_, ?_, ?_, ?_⟩
  · intro x
    simp [UnionMem]
  · intro x hx
    cases hx
  · intro p hp
    cases hp
  · intro p hp
    cases hp
  · exact List.Pairwise.nil
  · intro k x hx
    obtain ⟨p, hp, -⟩ := hx
    simp at hp

/-- Top-level facts about `decompose`. -/
theorem decompose_spec (g : FieldGrid) (pieces : List (List Tile))
    (h : decompose g = some pieces) :
    (∀ p ∈ pieces, ∀ x ∈ p, InBox g x) ∧
    (∀ p ∈ pieces, ∃ s, p.head? = some s ∧ ∀ x ∈ p, Reach g s x) ∧
    List.Pairwise (fun p q => ∀ x ∈ p, x ∉ q) pieces ∧
    (∀ k x, UnionMem (pieces.take k) x →
      ∀ n ∈ connectedDirectNeighborTiles g x, UnionMem (pieces.take k) n) ∧
    (∀ t, InBox g t → UnionMem pieces t) := by
  unfold decompose at h
  cases hres : decomposeAux g (scanTiles g) [] [] with
  | none => rw [hres] at h; cases h
  | some pr =>
    obtain ⟨ps, v2⟩ := pr
    rw [hres] at h
    have hps : ps = pieces := by
      cases h
      rfl
    subst hps
    obtain ⟨hst, -, hcov, -⟩ :=
      decomposeAux_state g _ _ _ _ _ hres (decompState_init g)
        (fun t ht => mem_scanTiles.mp ht)
    exact ⟨hst.inbox, hst.heads, hst.disj, hst.prefclosed,
      fun t ht => hcov t (mem_scanTiles.mpr ht)⟩

/-! ## The tile-to-piece-id map -/

lemma pieces_disjoint_unique {pieces : List (List Tile)}
    (hdisj : List.Pairwise (fun p q => ∀ x ∈ p, x ∉ q) pieces) {t : Tile} {i j : Nat}
    (hi : i < pieces.length) (hj : j < pieces.length)
    (hti : t ∈ pieces.get ⟨i, hi⟩) (htj : t ∈ pieces.get ⟨j, hj⟩) : i = j := by
  rcases lt_trichotomy i j with h | h | h
  · exact absurd htj (List.pairwise_iff_get.mp hdisj ⟨i, hi⟩ ⟨j, hj⟩ h t hti)
  · exact h
  · exact absurd hti (List.pairwise_iff_get.mp hdisj ⟨j, hj⟩ ⟨i, hi⟩ h t htj)

lemma tileToPieceId_mem {pieces : List (List Tile)} {t : Tile} {i : Nat}
    (h : tileToPieceId pieces t = some i) :
    ∃ hi : i < pieces.length, t ∈ pieces.get ⟨i, hi⟩ := by
  unfold tileToPieceId at h
  have hmem := List.mem_of_mem_getLast? h
  obtain ⟨pair, hpair, hfst⟩ := List.mem_map.mp hmem
  obtain ⟨hpe, hpf⟩ := List.mem_filter.mp hpair
  obtain ⟨pi, pp⟩ := pair
  have hfst2 : pi = i := hfst
  rw [hfst2] at hpe
  have hget := List.mk_mem_enum_iff_get?.mp hpe
  have hlt : i < pieces.length := by
    rw [List.get?_eq_some] at hget
    exact hget.1
  refine ⟨hlt, ?_⟩
  have : pieces.get ⟨i, hlt⟩ = pp := by
    rw [List.get?_eq_some] at hget
    obtain ⟨_, hg⟩ := hget
    exact hg
  rw [this]
  simpa using hpf

lemma tileToPieceId_eq_some_iff {pieces : List (List Tile)}
    (hdisj : List.Pairwise (fun p q => ∀ x ∈ p, x ∉ q) pieces) {t : Tile} {i : Nat} :
    tileToPieceId pieces t = some i ↔ ∃ hi : i < pieces.length, t ∈ pieces.get ⟨i, hi⟩ := by
  constructor
  · exact tileToPieceId_mem
  · rintro ⟨hi, hti⟩
    have hne : (pieces.enum.filter (fun p => decide (t ∈ p.2))).map (·.1) ≠ [] := by
      have hpe : (i, pieces.get ⟨i, hi⟩) ∈ pieces.enum :=
        List.mk_mem_enum_iff_get?.mpr (List.get?_eq_get hi)
      have : (i, pieces.get ⟨i, hi⟩) ∈ pieces.enum.filter (fun p => decide (t ∈ p.2)) :=
        List.mem_filter.mpr ⟨hpe, by simpa using hti⟩
      intro hcon
      rw [List.map_eq_nil_iff] at hcon
      rw [hcon] at this
      cases this
    obtain ⟨j, hj⟩ := Option.isSome_iff_exists.mp
      ((List.getLast?_isSome).mpr hne)
    have hjj := tileToPieceId_mem (i := j) hj
    obtain ⟨hjlt, htj⟩ := hjj
    have : i = j := pieces_disjoint_unique hdisj hi hjlt hti htj
    subst this
    exact hj

lemma unionMem_take_of_reach {g : FieldGrid} {pieces : List (List Tile)}
    (hpc : ∀ k x, UnionMem (pieces.take k) x →
      ∀ n ∈ connectedDirectNeighborTiles g x, UnionMem (pieces.take k) n)
    {k : Nat} {x y : Tile} (hx : UnionMem (pieces.take k) x) (hr : Reach g x y) :
    UnionMem (pieces.take k) y := by
  induction hr with
  | refl => exact hx
  | tail _ hstep ih => exact hpc k _ ih _ hstep

lemma get_mem_take {pieces : List (List Tile)} {i : Nat} (hi : i < pieces.length)
    {k : Nat} (hik : i < k) : pieces.get ⟨i, hi⟩ ∈ pieces.take k := by
  rw [List.mem_take_iff_getElem]
  refine ⟨i, by simp; omega, ?_⟩
  simp [List.getElem_take]

lemma mem_take_get {pieces : List (List Tile)} {p : List Tile} {k : Nat}
    (h : p ∈ pieces.take k) :
    ∃ i, ∃ hi : i < pieces.length, i < k ∧ pieces.get ⟨i, hi⟩ = p := by
  rw [List.mem_take_iff_getElem] at h
  obtain ⟨i, hlt, hx⟩ := h
  simp only [lt_min_iff] at hlt
  exact ⟨i, hlt.2, hlt.1, by simpa [List.getElem_take] using hx⟩

/-! ## Well-formed grid files -/

/-- The persisted grid-file format: `horiz` holds `NUM_TILES_Y` rows of
`NUM_TILES_X + 1` booleans, `vert` holds `NUM_TILES_X` rows of
`NUM_TILES_Y + 1` booleans, mutually size-consistent. -/
def WellFormed (g : FieldGrid) : Prop :=
  g.horiz.length = g.numY ∧ g.vert.length = g.numX ∧
  (∀ row ∈ g.horiz, row.length = g.numX + 1) ∧
  (∀ row ∈ g.vert, row.length = g.numY + 1)

instance (g : FieldGrid) : Decidable (WellFormed g) := by
  unfold WellFormed; infer_instance


/-! ## Claim C1: same piece id iff connected by closed-gap paths -/

/-- Two tiles receive the same piece id exactly when a closed-gap path
joins them (the core of claim C1, also used for the solid-attribution
invariants). -/
theorem sameId_iff_reach (g : FieldGrid) (hwf : WellFormed g)
    (pieces : List (List Tile)) (hdec : decompose g = some pieces)
    (t1 t2 : Tile) (h1 : InBox g t1) (h2 : InBox g t2) :
    (∃ i, tileToPieceId pieces t1 = some i ∧ tileToPieceId pieces t2 = some i)
      ↔ Reach g t1 t2 := by
  obtain ⟨hinbox, hheads, hdisj, hpc, hcov⟩ := decompose_spec g pieces hdec
  constructor
  · rintro ⟨i, hi1, hi2⟩
    obtain ⟨hlt, ht1⟩ := tileToPieceId_mem hi1
    obtain ⟨hlt2, ht2⟩ := tileToPieceId_mem hi2
    have hpmem : pieces.get ⟨i, hlt⟩ ∈ pieces := pieces.get_mem i hlt
    obtain ⟨s, hshead, hreach⟩ := hheads _ hpmem
    have hsmem : s ∈ pieces.get ⟨i, hlt⟩ := List.mem_of_mem_head? hshead
    have hsbox : InBox g s := hinbox _ hpmem s hsmem
    have h1s : Reach g t1 s := reach_symm hsbox (hreach t1 ht1)
    exact h1s.trans (hreach t2 (by simpa using ht2))
  · intro hr
    obtain ⟨p1, hp1, htp1⟩ := hcov t1 h1
    obtain ⟨p2, hp2, htp2⟩ := hcov t2 h2
    obtain ⟨⟨i, hilt⟩, hgi⟩ := List.mem_iff_get.mp hp1
    obtain ⟨⟨j, hjlt⟩, hgj⟩ := List.mem_iff_get.mp hp2
    have hti : t1 ∈ pieces.get ⟨i, hilt⟩ := by rw [hgi]; exact htp1
    have htj : t2 ∈ pieces.get ⟨j, hjlt⟩ := by rw [hgj]; exact htp2
    have hji : j ≤ i := by
      have hu1 : UnionMem (pieces.take (i + 1)) t1 :=
        ⟨pieces.get ⟨i, hilt⟩, get_mem_take hilt (Nat.lt_succ_self i), hti⟩
      have hu2 : UnionMem (pieces.take (i + 1)) t2 :=
        unionMem_take_of_reach hpc hu1 hr
      obtain ⟨q, hq, ht2q⟩ := hu2
      obtain ⟨j2, hj2lt, hj2k, hgq⟩ := mem_take_get hq
      have ht2q2 : t2 ∈ pieces.get ⟨j2, hj2lt⟩ := by rw [hgq]; exact ht2q
      have : j = j2 := pieces_disjoint_unique hdisj hjlt hj2lt htj ht2q2
      omega
    have hij : i ≤ j := by
      have hr2 : Reach g t2 t1 := reach_symm h1 hr
      have hu1 : UnionMem (pieces.take (j + 1)) t2 :=
        ⟨pieces.get ⟨j, hjlt⟩, get_mem_take hjlt (Nat.lt_succ_self j), htj⟩
      have hu2 : UnionMem (pieces.take (j + 1)) t1 :=
        unionMem_take_of_reach hpc hu1 hr2
      obtain ⟨q, hq, ht1q⟩ := hu2
      obtain ⟨i2, hi2lt, hi2k, hgq⟩ := mem_take_get hq
      have ht1q2 : t1 ∈ pieces.get ⟨i2, hi2lt⟩ := by rw [hgq]; exact ht1q
      have : i = i2 := pieces_disjoint_unique hdisj hilt hi2lt hti ht1q2
      omega
    have hije : i = j := le_antisymm hij hji
    subst hije
    refine ⟨i, ?_, ?_⟩
    · exact (tileToPieceId_eq_some_iff hdisj).mpr ⟨hilt, hti⟩
    · exact (tileToPieceId_eq_some_iff hdisj).mpr ⟨hilt, htj⟩

/-! ## Discovery order of the scan -/

/-- Index of a tile in the row-major scan order. -/
def sidx (g : FieldGrid) (t : Tile) : Nat := (scanTiles g).indexOf t

/-- Scan index of the tile a piece was discovered from (its first entry). -/
def headIdx (g : FieldGrid) (p : List Tile) : Nat :=
  match p.head? with
  | none => 0
  | some s => sidx g s

lemma headIdx_of_head {g : FieldGrid} {p : List Tile} {s : Tile}
    (h : p.head? = some s) : headIdx g p = sidx g s := by
  unfold headIdx
  rw [h]

lemma indexOf_append_ge (done rest : List Tile) (x : Tile) (hx : x ∉ done) :
    done.length ≤ (done ++ rest).indexOf x := by
  induction done with
  | nil => simp
  | cons d ds ihd =>
    have hxd : ¬d = x := fun h => hx (h ▸ List.mem_cons_self d ds)
    have hxds : x ∉ ds := fun h => hx (List.mem_cons_of_mem d h)
    have hbe : (d == x) = false := by simpa using hxd
    simp only [List.cons_append, List.length_cons, List.indexOf_cons, hbe, cond_false]
    have := ihd hxds
    omega

lemma indexOf_append_head (done : List Tile) (t : Tile) (ts : List Tile)
    (ht : t ∉ done) : (done ++ t :: ts).indexOf t = done.length := by
  induction done with
  | nil =>
    simp only [List.nil_append, List.length_nil, List.indexOf_cons,
      beq_self_eq_true, cond_true]
  | cons d ds ihd =>
    have htd : ¬d = t := fun h => ht (h ▸ List.mem_cons_self d ds)
    have htds : t ∉ ds := fun h => ht (List.mem_cons_of_mem d h)
    have hbe : (d == t) = false := by simpa using htd
    simp only [List.cons_append, List.length_cons, List.indexOf_cons, hbe, cond_false]
    rw [ihd htds]

lemma sidx_ge_of_not_mem_done {g : FieldGrid} {done rest : List Tile}
    (hscan : scanTiles g = done ++ rest) {x : Tile} (hx : x ∉ done) :
    done.length ≤ sidx g x := by
  unfold sidx
  rw [hscan]
  exact indexOf_append_ge done rest x hx

lemma sidx_head_of_todo {g : FieldGrid} {done : List Tile} {t : Tile} {ts : List Tile}
    (hscan : scanTiles g = done ++ t :: ts) (ht : t ∉ done) :
    sidx g t = done.length := by
  unfold sidx
  rw [hscan]
  exact indexOf_append_head done t ts ht

/-- The pieces appended by the decomposition loop are discovered in scan
order: each new piece starts at its scan-least tile, and the start indices
are strictly increasing from piece to piece. -/
theorem decomposeAux_order (g : FieldGrid) :
    ∀ todo done visited pieces pieces2 v2,
      decomposeAux g todo visited pieces = some (pieces2, v2) →
      scanTiles g = done ++ todo →
      (∀ x ∈ done, x ∈ visited) →
      DecompState g visited pieces →
      (∀ t ∈ todo, InBox g t) →
      (∀ p ∈ pieces2.drop pieces.length, ∀ x ∈ p, headIdx g p ≤ sidx g x) ∧
      List.Pairwise (fun p q => headIdx g p < headIdx g q)
        (pieces2.drop pieces.length) ∧
      (∀ p ∈ pieces2.drop pieces.length, done.length ≤ headIdx g p) := by
  intro todo
  induction todo with
  | nil =>
    intro done visited pieces pieces2 v2 hres hscan hdone hst hbox
    simp only [decomposeAux, Option.some.injEq, Prod.mk.injEq] at hres
    obtain ⟨rfl, rfl⟩ := hres
    rw [List.drop_length]
    exact ⟨fun p hp => absurd hp (List.not_mem_nil p), List.Pairwise.nil,
      fun p hp => absurd hp (List.not_mem_nil p)⟩
  | cons t ts ih =>
    intro done visited pieces pieces2 v2 hres hscan hdone hst hbox
    have hscan2 : scanTiles g = (done ++ [t]) ++ ts := by
      rw [hscan, List.append_assoc]
      rfl
    rw [decomposeAux] at hres
    split_ifs at hres with hmem
    · obtain ⟨o1, o2, o3⟩ := ih (done ++ [t]) _ _ _ _ hres hscan2
        (by
          intro x hx
          rcases List.mem_append.mp hx with h | h
          · exact hdone x h
          · rw [List.mem_singleton] at h
            subst h
            exact hmem)
        hst (fun u hu => hbox u (List.mem_cons_of_mem _ hu))
      refine ⟨o1, o2, ?_⟩
      intro p hp
      have := o3 p hp
      simp only [List.length_append, List.length_singleton] at this
      omega
    · cases hfl : floodfillPieceFrom g visited t with
      | none => rw [hfl] at hres; cases hres
      | some pr =>
        obtain ⟨piece, vmid⟩ := pr
        rw [hfl] at hres
        obtain ⟨hst2, hmid, htpiece, hthead⟩ :=
          floodfillPieceFrom_step hst hmem (hbox t (List.mem_cons_self t ts)) hfl
        -- freshness of the new piece with respect to `visited`
        have hfresh : ∀ x ∈ piece, x ∉ visited := by
          intro x hx hxv
          obtain ⟨p, hp, hxp⟩ := (hst.vis_iff x).mp hxv
          have hpair := List.pairwise_append.mp hst2.disj
          exact hpair.2.2 p hp piece (List.mem_singleton_self _) x hxp hx
        have hprefix :=
          (decomposeAux_state g ts vmid (pieces ++ [piece]) pieces2 v2 hres hst2
            (fun u hu => hbox u (List.mem_cons_of_mem _ hu))).2.1
        obtain ⟨rest, hrest⟩ := hprefix
        have hdrop1 : pieces2.drop pieces.length = piece :: rest := by
          rw [← hrest, List.append_assoc, List.drop_left]
          rfl
        have hdrop2 : pieces2.drop (pieces ++ [piece]).length = rest := by
          rw [← hrest, List.drop_left]
        obtain ⟨o1, o2, o3⟩ := ih (done ++ [t]) _ _ _ _ hres hscan2
          (by
            intro x hx
            rcases List.mem_append.mp hx with h | h
            · exact hmid x (hdone x h)
            · rw [List.mem_singleton] at h
              refine (hst2.vis_iff x).mpr
                ⟨piece, List.mem_append_right _ (List.mem_singleton_self _), ?_⟩
              rw [h]
              exact htpiece)
          hst2 (fun u hu => hbox u (List.mem_cons_of_mem _ hu))
        rw [hdrop2] at o1 o2 o3
        have htnd : t ∉ done := fun h => hmem (hdone t h)
        have hsidxt : sidx g t = done.length := sidx_head_of_todo hscan htnd
        have hhead : headIdx g piece = done.length := by
          rw [headIdx_of_head hthead, hsidxt]
        have hminpiece : ∀ x ∈ piece, headIdx g piece ≤ sidx g x := by
          intro x hx
          rw [hhead]
          have hxnd : x ∉ done := fun h => hfresh x hx (hdone x h)
          exact sidx_ge_of_not_mem_done hscan hxnd
        rw [hdrop1]
        refine ⟨?_, ?_, ?_⟩
        · intro p hp x hx
          rcases List.mem_cons.mp hp with rfl | hp
          · exact hminpiece x hx
          · exact o1 p hp x hx
        · rw [List.pairwise_cons]
          refine ⟨?_, o2⟩
          intro q hq
          have := o3 q hq
          simp only [List.length_append, List.length_singleton] at this
          rw [hhead]
          omega
        · intro p hp
          rcases List.mem_cons.mp hp with rfl | hp
          · rw [hhead]
          · have := o3 p hp
            simp only [List.length_append, List.length_singleton] at this
            omega


/-! ## Claim C2: the decomposition is a partition in discovery order -/

theorem decompose_order (g : FieldGrid) (pieces : List (List Tile))
    (hdec : decompose g = some pieces) :
    (∀ p ∈ pieces, ∀ x ∈ p, headIdx g p ≤ sidx g x) ∧
    List.Pairwise (fun p q => headIdx g p < headIdx g q) pieces := by
  unfold decompose at hdec
  cases hres : decomposeAux g (scanTiles g) [] [] with
  | none => rw [hres] at hdec; cases hdec
  | some pr =>
    obtain ⟨ps, v2⟩ := pr
    rw [hres] at hdec
    have hps : ps = pieces := by
      cases hdec
      rfl
    subst hps
    obtain ⟨o1, o2, -⟩ := decomposeAux_order g (scanTiles g) [] [] [] ps v2 hres
      (by simp) (by intro x hx; cases hx) (decompState_init g)
      (fun t ht => mem_scanTiles.mp ht)
    simp only [List.length_nil, List.drop_zero] at o1 o2
    exact ⟨o1, o2⟩

/-- C2: the decomposition output partitions the tile set — the
tile-to-piece-id map is total and single-valued over the grid tiles, piece
tile sets are mutually disjoint, the assigned ids are exactly the
consecutive integers `0 .. num_pieces - 1`, and ids are assigned in
discovery order of the row-major scan (each piece starts at its scan-least
tile and start indices strictly increase with the id). -/
theorem decompose_partition (g : FieldGrid) (hwf : WellFormed g)
    (pieces : List (List Tile)) (hdec : decompose g = some pieces) :
    (∀ t, InBox g t → ∃ i, tileToPieceId pieces t = some i) ∧
    (∀ t i j (hi : i < pieces.length) (hj : j < pieces.length),
      t ∈ pieces.get ⟨i, hi⟩ → t ∈ pieces.get ⟨j, hj⟩ → i = j) ∧
    (∀ t i, tileToPieceId pieces t = some i →
      ∃ hi : i < pieces.length, t ∈ pieces.get ⟨i, hi⟩) ∧
    (∀ i, (∃ t, tileToPieceId pieces t = some i) ↔ i < pieces.length) ∧
    (∀ p ∈ pieces, ∀ x ∈ p, headIdx g p ≤ sidx g x) ∧
    List.Pairwise (fun p q => headIdx g p < headIdx g q) pieces := by
  obtain ⟨hinbox, hheads, hdisj, hpc, hcov⟩ := decompose_spec g pieces hdec
  obtain ⟨ho1, ho2⟩ := decompose_order g pieces hdec
  refine ⟨?_, ?_, ?_, ?_, ho1, ho2⟩
  · intro t ht
    obtain ⟨p, hp, htp⟩ := hcov t ht
    obtain ⟨⟨i, hi⟩, hgi⟩ := List.mem_iff_get.mp hp
    exact ⟨i, (tileToPieceId_eq_some_iff hdisj).mpr ⟨hi, by rw [hgi]; exact htp⟩⟩
  · intro t i j hi hj hti htj
    exact pieces_disjoint_unique hdisj hi hj hti htj
  · intro t i h
    exact tileToPieceId_mem h
  · intro i
    constructor
    · rintro ⟨t, hts⟩
      exact (tileToPieceId_mem hts).1
    · intro hi
      have hpmem : pieces.get ⟨i, hi⟩ ∈ pieces := pieces.get_mem i hi
      obtain ⟨s, hshead, -⟩ := hheads _ hpmem
      exact ⟨s, (tileToPieceId_eq_some_iff hdisj).mpr
        ⟨hi, List.mem_of_mem_head? hshead⟩⟩

/-! ## The bordering-pieces map -/

/-- `bordering_pieces_map[a].add(b)`: insert `b` into the set stored under
key `a` of a `defaultdict(set)` modelled as a total function. -/
def addBorder (m : Nat → Finset Nat) (a b : Nat) : Nat → Finset Nat :=
  fun k => if k = a then insert b (m a) else m k

/-- The inner loop over the direct neighbors of one tile: looks up each
neighbor's piece id (a dict access that can fail) and records the edge in
both directions when the ids differ. -/
def borderingInner (pid : Nat) (pidOf : Tile → Option Nat) :
    List Tile → (Nat → Finset Nat) → Option (Nat → Finset Nat)
  | [], m => some m
  | n :: ns, m =>
      match pidOf n with
      | none => none
      | some q =>
          borderingInner pid pidOf ns
            (if q ≠ pid then addBorder (addBorder m pid q) q pid else m)

/-- The outer double loop of the bordering computation, over the row-major
scan order. -/
def borderingOuter (g : FieldGrid) (pidOf : Tile → Option Nat) :
    List Tile → (Nat → Finset Nat) → Option (Nat → Finset Nat)
  | [], m => some m
  | t :: ts, m =>
      match pidOf t with
      | none => none
      | some pid =>
          match borderingInner pid pidOf (directNeighborTiles g t) m with
          | none => none
          | some m2 => borderingOuter g pidOf ts m2

/-- `bordering_pieces_map`, starting from empty sets. -/
def borderingPiecesMap (g : FieldGrid) (pieces : List (List Tile)) :
    Option (Nat → Finset Nat) :=
  borderingOuter g (tileToPieceId pieces) (scanTiles g) (fun _ => ∅)

lemma mem_addBorder {m : Nat → Finset Nat} {a b k q : Nat} :
    q ∈ addBorder m a b k ↔ q ∈ m k ∨ (k = a ∧ q = b) := by
  unfold addBorder
  split_ifs with h
  · subst h
    simp [Finset.mem_insert, or_comm]
  · simp [h]

/-- Edges contributed by the neighbors of one tile. -/
def InnerPair (pid : Nat) (pidOf : Tile → Option Nat) (ns : List Tile)
    (k q : Nat) : Prop :=
  ∃ n ∈ ns, ∃ qn, pidOf n = some qn ∧ qn ≠ pid ∧
    ((k = pid ∧ q = qn) ∨ (k = qn ∧ q = pid))

lemma borderingInner_spec (pid : Nat) (pidOf : Tile → Option Nat) :
    ∀ ns m m2, borderingInner pid pidOf ns m = some m2 →
      ∀ k q, q ∈ m2 k ↔ q ∈ m k ∨ InnerPair pid pidOf ns k q := by
  intro ns
  induction ns with
  | nil =>
    intro m m2 h k q
    simp only [borderingInner, Option.some.injEq] at h
    subst h
    simp [InnerPair]
  | cons n ns ihn =>
    intro m m2 h k q
    rw [borderingInner] at h
    cases hq : pidOf n with
    | none => rw [hq] at h; cases h
    | some qn =>
      rw [hq] at h
      have hspec := ihn _ _ h k q
      rw [hspec]
      by_cases hne : qn ≠ pid
      · rw [if_pos hne]
        simp only [mem_addBorder]
        constructor
        · rintro (((hm | hp) | hp) | hp)
          · exact Or.inl hm
          · exact Or.inr ⟨n, List.mem_cons_self n ns, qn, hq, hne, Or.inl hp⟩
          · exact Or.inr ⟨n, List.mem_cons_self n ns, qn, hq, hne, Or.inr hp⟩
          · obtain ⟨n2, hn2, qn2, hqn2, hne2, hor⟩ := hp
            exact Or.inr ⟨n2, List.mem_cons_of_mem n hn2, qn2, hqn2, hne2, hor⟩
        · rintro (hm | ⟨n2, hn2, qn2, hqn2, hne2, hor⟩)
          · exact Or.inl (Or.inl (Or.inl hm))
          · rcases List.mem_cons.mp hn2 with rfl | hn2
            · rw [hq] at hqn2
              simp only [Option.some.injEq] at hqn2
              subst hqn2
              rcases hor with hp | hp
              · exact Or.inl (Or.inl (Or.inr hp))
              · exact Or.inl (Or.inr hp)
            · exact Or.inr ⟨n2, hn2, qn2, hqn2, hne2, hor⟩
      · rw [if_neg hne]
        push_neg at hne
        subst hne
        constructor
        · rintro (hm | hp)
          · exact Or.inl hm
          · obtain ⟨n2, hn2, qn2, hqn2, hne2, hor⟩ := hp
            exact Or.inr ⟨n2, List.mem_cons_of_mem n hn2, qn2, hqn2, hne2, hor⟩
        · rintro (hm | ⟨n2, hn2, qn2, hqn2, hne2, hor⟩)
          · exact Or.inl hm
          · rcases List.mem_cons.mp hn2 with rfl | hn2
            · rw [hq] at hqn2
              simp only [Option.some.injEq] at hqn2
              exact absurd hqn2.symm hne2
            · exact Or.inr ⟨n2, hn2, qn2, hqn2, hne2, hor⟩


/-- Edges contributed by a list of scanned tiles. -/
def OuterPair (g : FieldGrid) (pidOf : Tile → Option Nat) (ts : List Tile)
    (k q : Nat) : Prop :=
  ∃ t ∈ ts, ∃ pid, pidOf t = some pid ∧
    InnerPair pid pidOf (directNeighborTiles g t) k q

lemma borderingOuter_spec (g : FieldGrid) (pidOf : Tile → Option Nat) :
    ∀ ts m m2, borderingOuter g pidOf ts m = some m2 →
      ∀ k q, q ∈ m2 k ↔ q ∈ m k ∨ OuterPair g pidOf ts k q := by
  intro ts
  induction ts with
  | nil =>
    intro m m2 h k q
    simp only [borderingOuter, Option.some.injEq] at h
    subst h
    simp [OuterPair]
  | cons t ts iht =>
    intro m m2 h k q
    rw [borderingOuter] at h
    cases hp : pidOf t with
    | none => rw [hp] at h; cases h
    | some pid =>
      rw [hp] at h
      dsimp only at h
      cases hi : borderingInner pid pidOf (directNeighborTiles g t) m with
      | none => rw [hi] at h; cases h
      | some mmid =>
        rw [hi] at h
        dsimp only at h
        rw [iht _ _ h k q, borderingInner_spec pid pidOf _ _ _ hi k q]
        constructor
        · rintro ((hm | hip) | hop)
          · exact Or.inl hm
          · exact Or.inr ⟨t, List.mem_cons_self t ts, pid, hp, hip⟩
          · obtain ⟨t2, ht2, pid2, hp2, hip2⟩ := hop
            exact Or.inr ⟨t2, List.mem_cons_of_mem t ht2, pid2, hp2, hip2⟩
        · rintro (hm | ⟨t2, ht2, pid2, hp2, hip2⟩)
          · exact Or.inl (Or.inl hm)
          · rcases List.mem_cons.mp ht2 with rfl | ht2
            · rw [hp] at hp2
              simp only [Option.some.injEq] at hp2
              subst hp2
              exact Or.inl (Or.inr hip2)
            · exact Or.inr ⟨t2, ht2, pid2, hp2, hip2⟩

lemma borderingInner_isSome (pid : Nat) (pidOf : Tile → Option Nat) :
    ∀ ns, (∀ n ∈ ns, (pidOf n).isSome) → ∀ m, (borderingInner pid pidOf ns m).isSome := by
  intro ns
  induction ns with
  | nil => intro _ m; simp [borderingInner]
  | cons n ns ihn =>
    intro hsome m
    rw [borderingInner]
    obtain ⟨q, hq⟩ := Option.isSome_iff_exists.mp (hsome n (List.mem_cons_self n ns))
    rw [hq]
    exact ihn (fun u hu => hsome u (List.mem_cons_of_mem n hu)) _

lemma borderingOuter_isSome (g : FieldGrid) (pidOf : Tile → Option Nat) :
    ∀ ts, (∀ t ∈ ts, (pidOf t).isSome ∧
        ∀ n ∈ directNeighborTiles g t, (pidOf n).isSome) →
      ∀ m, (borderingOuter g pidOf ts m).isSome := by
  intro ts
  induction ts with
  | nil => intro _ m; simp [borderingOuter]
  | cons t ts iht =>
    intro hsome m
    rw [borderingOuter]
    obtain ⟨hpt, hpn⟩ := hsome t (List.mem_cons_self t ts)
    obtain ⟨pid, hpid⟩ := Option.isSome_iff_exists.mp hpt
    rw [hpid]
    dsimp only
    obtain ⟨mmid, hmmid⟩ := Option.isSome_iff_exists.mp
      (borderingInner_isSome pid pidOf _ hpn m)
    rw [hmmid]
    exact iht (fun u hu => hsome u (List.mem_cons_of_mem t hu)) _

lemma tileToPieceId_isSome_of_inBox {g : FieldGrid} {pieces : List (List Tile)}
    (hdec : decompose g = some pieces) {t : Tile} (ht : InBox g t) :
    (tileToPieceId pieces t).isSome := by
  obtain ⟨-, -, hdisj, -, hcov⟩ := decompose_spec g pieces hdec
  obtain ⟨p, hp, htp⟩ := hcov t ht
  obtain ⟨⟨i, hi⟩, hgi⟩ := List.mem_iff_get.mp hp
  rw [(tileToPieceId_eq_some_iff hdisj).mpr ⟨hi, by rw [hgi]; exact htp⟩]
  rfl

theorem borderingPiecesMap_isSome (g : FieldGrid) (pieces : List (List Tile))
    (hdec : decompose g = some pieces) : (borderingPiecesMap g pieces).isSome := by
  apply borderingOuter_isSome
  intro t ht
  have htb : InBox g t := mem_scanTiles.mp ht
  exact ⟨tileToPieceId_isSome_of_inBox hdec htb,
    fun n hn => tileToPieceId_isSome_of_inBox hdec (directNeighborTiles_inBox htb hn)⟩

lemma directStep_symm {g : FieldGrid} {t n : Tile} (ht : InBox g t)
    (h : n ∈ directNeighborTiles g t) : t ∈ directNeighborTiles g n := by
  obtain ⟨x, y⟩ := t
  obtain ⟨hx, hy⟩ := ht
  rcases mem_directNeighborTiles.mp h with ⟨h1, rfl⟩ | ⟨h1, rfl⟩ | ⟨h1, rfl⟩ | ⟨h1, rfl⟩ <;>
    rw [mem_directNeighborTiles]
  · refine Or.inr (Or.inl ⟨by omega, by simp; omega⟩)
  · exact Or.inl ⟨by omega, by simp⟩
  · refine Or.inr (Or.inr (Or.inr ⟨by omega, by simp; omega⟩))
  · exact Or.inr (Or.inr (Or.inl ⟨by omega, by simp⟩))

/-! ## Claim C9: the piece adjacency graph -/

/-- The bordering map has an edge between distinct piece ids `A` and `B`
exactly when some tile of `A` is geometrically adjacent (side-sharing,
regardless of bridge state) to some tile of `B`, and it is symmetric
(the core of claim C9, also used by the coloring proofs). -/
theorem borderingMap_spec (g : FieldGrid) (hwf : WellFormed g)
    (pieces : List (List Tile)) (hdec : decompose g = some pieces)
    (m : Nat → Finset Nat) (hm : borderingPiecesMap g pieces = some m)
    (A B : Nat) :
    (B ∈ m A ↔ A ≠ B ∧ ∃ t n, InBox g t ∧ n ∈ directNeighborTiles g t ∧
      tileToPieceId pieces t = some A ∧ tileToPieceId pieces n = some B) ∧
    (B ∈ m A ↔ A ∈ m B) := by
  have hchar : ∀ k q, q ∈ m k ↔
      OuterPair g (tileToPieceId pieces) (scanTiles g) k q := by
    intro k q
    rw [borderingOuter_spec g _ _ _ _ hm k q]
    simp
  have hmain : ∀ k q, q ∈ m k ↔ k ≠ q ∧ ∃ t n, InBox g t ∧
      n ∈ directNeighborTiles g t ∧
      tileToPieceId pieces t = some k ∧ tileToPieceId pieces n = some q := by
    intro k q
    rw [hchar]
    constructor
    · rintro ⟨t, ht, pid, hpid, n, hn, qn, hqn, hne, hor⟩
      have htb : InBox g t := mem_scanTiles.mp ht
      rcases hor with ⟨rfl, rfl⟩ | ⟨rfl, rfl⟩
      · exact ⟨fun h => hne h.symm, t, n, htb, hn, hpid, hqn⟩
      · refine ⟨hne, n, t, directNeighborTiles_inBox htb hn,
          directStep_symm htb hn, hqn, hpid⟩
    · rintro ⟨hne, t, n, htb, hn, hk, hq⟩
      exact ⟨t, mem_scanTiles.mpr htb, k, hk, n, hn, q, hq,
        fun h => hne h.symm, Or.inl ⟨rfl, rfl⟩⟩
  refine ⟨hmain A B, ?_⟩
  rw [hmain A B, hmain B A]
  constructor
  · rintro ⟨hne, t, n, htb, hn, hA, hB⟩
    exact ⟨hne.symm, n, t, directNeighborTiles_inBox htb hn,
      directStep_symm htb hn, hB, hA⟩
  · rintro ⟨hne, t, n, htb, hn, hB, hA⟩
    exact ⟨hne.symm, n, t, directNeighborTiles_inBox htb hn,
      directStep_symm htb hn, hA, hB⟩


/-! ## The greedy coloring -/

/-- One iteration of the coloring loop for piece id `pid`: collect the
colors already given to its bordering pieces (`none` for those not yet
assigned), first-fit the smallest existing color not among them, and
otherwise allocate the next new color. -/
def colorStep (bmap : Nat → Finset Nat) (st : (Nat → Option Nat) × Nat)
    (pid : Nat) : (Nat → Option Nat) × Nat :=
  match (List.range st.2).find? (fun c => decide (some c ∉ (bmap pid).image st.1)) with
  | some c => (Function.update st.1 pid (some c), st.2)
  | none => (Function.update st.1 pid (some st.2), st.2 + 1)

/-- `piece_color_map` and `num_used_colors` after the coloring loop over
piece ids `0 .. n-1`. -/
def colorPieces (bmap : Nat → Finset Nat) (n : Nat) : (Nat → Option Nat) × Nat :=
  (List.range n).foldl (colorStep bmap) (fun _ => none, 0)

theorem find_range_first (p : Nat → Bool) :
    ∀ (m b : Nat), (List.range m).find? p = some b →
      p b = true ∧ b < m ∧ ∀ c, c < b → p c = false := by
  intro m
  induction m with
  | zero => intro b h; simp [List.range_zero] at h
  | succ m ihm =>
    intro b h
    rw [List.range_succ, List.find?_append] at h
    cases hfind : (List.range m).find? p with
    | some b2 =>
      rw [hfind] at h
      rw [show (some b2).or (List.find? p [m]) = some b2 from rfl] at h
      simp only [Option.some.injEq] at h
      subst h
      exact ⟨(ihm b2 hfind).1, by have := (ihm b2 hfind).2.1; omega, (ihm b2 hfind).2.2⟩
    | none =>
      rw [hfind] at h
      rw [show (Option.none).or (List.find? p [m]) = List.find? p [m] from rfl] at h
      have hfound := List.find?_some h
      have hmem := List.mem_of_find?_eq_some h
      simp only [List.mem_singleton] at hmem
      subst hmem
      refine ⟨hfound, by omega, ?_⟩
      intro c hc
      have := List.find?_eq_none.mp hfind c (by simp; omega)
      simpa using this

/-- Invariant of the coloring loop after processing ids `0 .. i-1`:
unprocessed ids are uncolored, processed ids carry a color below the used
count which is the smallest one not taken by an earlier-colored bordering
piece, and bordering processed pieces never share a color. -/
structure ColorInv (bmap : Nat → Finset Nat) (i : Nat)
    (st : (Nat → Option Nat) × Nat) : Prop where
  unassigned : ∀ k, i ≤ k → st.1 k = none
  assigned : ∀ k, k < i → ∃ c, st.1 k = some c ∧ c < st.2
  least : ∀ k, k < i → ∀ c, st.1 k = some c →
    (∀ b ∈ bmap k, b < k → st.1 b ≠ some c) ∧
    (∀ c2, c2 < c → ∃ b ∈ bmap k, b < k ∧ st.1 b = some c2)
  proper : ∀ a b, a < i → b < i → b ∈ bmap a → a ≠ b → st.1 a ≠ st.1 b

theorem colorStep_inv (bmap : Nat → Finset Nat)
    (hsym : ∀ a b, a ∈ bmap b ↔ b ∈ bmap a) (i : Nat)
    (st : (Nat → Option Nat) × Nat) (hinv : ColorInv bmap i st) :
    ColorInv bmap (i + 1) (colorStep bmap st i) := by
  have hupdate : ∀ (v : Option Nat) (w : Nat) (k : Nat), k ≠ i →
      (Function.update st.1 i v, w).1 k = st.1 k := by
    intro v w k hk
    exact Function.update_noteq hk v st.1
  have hupdate2 : ∀ (v : Option Nat) (w : Nat), (Function.update st.1 i v, w).1 i = v := by
    intro v w
    exact Function.update_same i v st.1
  have hmemimg : ∀ c2, some c2 ∈ (bmap i).image st.1 →
      ∃ b ∈ bmap i, b < i ∧ st.1 b = some c2 := by
    intro c2 hc2
    obtain ⟨b, hb, hbc⟩ := Finset.mem_image.mp hc2
    refine ⟨b, hb, ?_, hbc⟩
    by_contra hbi
    push_neg at hbi
    rw [hinv.unassigned b hbi] at hbc
    cases hbc
  -- facts about the chosen color in each branch
  unfold colorStep
  cases hfind : (List.range st.2).find?
      (fun c => decide (some c ∉ (bmap i).image st.1)) with
  | some c =>
    obtain ⟨hpc, hclt, hbefore⟩ := find_range_first _ _ _ hfind
    have hcnot : some c ∉ (bmap i).image st.1 := by simpa using hpc
    have hcbelow : ∀ c2, c2 < c → some c2 ∈ (bmap i).image st.1 := by
      intro c2 hc2
      have := hbefore c2 hc2
      simpa using this
    dsimp only
    refine ⟨?_, ?_, ?_, ?_⟩
    · intro k hk
      rw [hupdate _ _ k (by omega)]
      exact hinv.unassigned k (by omega)
    · intro k hk
      rcases Nat.lt_succ_iff_lt_or_eq.mp hk with hk2 | rfl
      · obtain ⟨ck, hck, hcklt⟩ := hinv.assigned k hk2
        exact ⟨ck, by rw [hupdate _ _ k (by omega)]; exact hck, hcklt⟩
      · exact ⟨c, by rw [hupdate2 _ _], hclt⟩
    · intro k hk ck hck
      rcases Nat.lt_succ_iff_lt_or_eq.mp hk with hk2 | rfl
      · rw [hupdate _ _ k (by omega)] at hck
        obtain ⟨hl1, hl2⟩ := hinv.least k hk2 ck hck
        constructor
        · intro b hb hbk
          rw [hupdate _ _ b (by omega)]
          exact hl1 b hb hbk
        · intro c2 hc2
          obtain ⟨b, hb, hbk, hbc⟩ := hl2 c2 hc2
          exact ⟨b, hb, hbk, by rw [hupdate _ _ b (by omega)]; exact hbc⟩
      · rw [hupdate2 _ _] at hck
        simp only [Option.some.injEq] at hck
        subst hck
        constructor
        · intro b hb hbk
          rw [hupdate _ _ b (by omega)]
          intro hbc
          exact hcnot (Finset.mem_image.mpr ⟨b, hb, hbc⟩)
        · intro c2 hc2
          obtain ⟨b, hb, hbk, hbc⟩ := hmemimg c2 (hcbelow c2 hc2)
          exact ⟨b, hb, hbk, by rw [hupdate _ _ b (by omega)]; exact hbc⟩
    · intro a b ha hb hab hne
      rcases Nat.lt_succ_iff_lt_or_eq.mp ha with ha2 | rfl <;>
        rcases Nat.lt_succ_iff_lt_or_eq.mp hb with hb2 | hbi
      · rw [hupdate _ _ a (by omega), hupdate _ _ b (by omega)]
        exact hinv.proper a b ha2 hb2 hab hne
      · subst hbi
        rw [hupdate _ _ a (by omega), hupdate2 _ _]
        intro heq
        have : some c ∈ (bmap b).image st.1 :=
          Finset.mem_image.mpr ⟨a, (hsym a b).mpr hab, heq⟩
        exact hcnot this
      · rw [hupdate2 _ _, hupdate _ _ b (by omega)]
        intro heq
        have : some c ∈ (bmap a).image st.1 :=
          Finset.mem_image.mpr ⟨b, hab, heq.symm⟩
        exact hcnot this
      · subst hbi
        exact absurd rfl hne
  | none =>
    have hall : ∀ c2, c2 < st.2 → some c2 ∈ (bmap i).image st.1 := by
      intro c2 hc2
      have := List.find?_eq_none.mp hfind c2 (by simp; omega)
      simpa using this
    have hcnot : ∀ b ∈ bmap i, b < i → st.1 b ≠ some st.2 := by
      intro b hb hbk hbc
      obtain ⟨cb, hcb, hcblt⟩ := hinv.assigned b hbk
      rw [hcb] at hbc
      simp only [Option.some.injEq] at hbc
      omega
    dsimp only
    refine ⟨?_, ?_, ?_, ?_⟩
    · intro k hk
      rw [hupdate _ _ k (by omega)]
      exact hinv.unassigned k (by omega)
    · intro k hk
      rcases Nat.lt_succ_iff_lt_or_eq.mp hk with hk2 | rfl
      · obtain ⟨ck, hck, hcklt⟩ := hinv.assigned k hk2
        exact ⟨ck, by rw [hupdate _ _ k (by omega)]; exact hck, by omega⟩
      · exact ⟨st.2, by rw [hupdate2 _ _], by omega⟩
    · intro k hk ck hck
      rcases Nat.lt_succ_iff_lt_or_eq.mp hk with hk2 | rfl
      · rw [hupdate _ _ k (by omega)] at hck
        obtain ⟨hl1, hl2⟩ := hinv.least k hk2 ck hck
        constructor
        · intro b hb hbk
          rw [hupdate _ _ b (by omega)]
          exact hl1 b hb hbk
        · intro c2 hc2
          obtain ⟨b, hb, hbk, hbc⟩ := hl2 c2 hc2
          exact ⟨b, hb, hbk, by rw [hupdate _ _ b (by omega)]; exact hbc⟩
      · rw [hupdate2 _ _] at hck
        simp only [Option.some.injEq] at hck
        subst hck
        constructor
        · intro b hb hbk
          rw [hupdate _ _ b (by omega)]
          exact hcnot b hb hbk
        · intro c2 hc2
          obtain ⟨b, hb, hbk, hbc⟩ := hmemimg c2 (hall c2 hc2)
          exact ⟨b, hb, hbk, by rw [hupdate _ _ b (by omega)]; exact hbc⟩
    · intro a b ha hb hab hne
      rcases Nat.lt_succ_iff_lt_or_eq.mp ha with ha2 | rfl <;>
        rcases Nat.lt_succ_iff_lt_or_eq.mp hb with hb2 | hbi
      · rw [hupdate _ _ a (by omega), hupdate _ _ b (by omega)]
        exact hinv.proper a b ha2 hb2 hab hne
      · subst hbi
        rw [hupdate _ _ a (by omega), hupdate2 _ _]
        intro heq
        exact hcnot a ((hsym a b).mpr hab) (by omega) heq
      · rw [hupdate2 _ _, hupdate _ _ b (by omega)]
        intro heq
        exact hcnot b hab (by omega) heq.symm
      · subst hbi
        exact absurd rfl hne

theorem colorPieces_inv (bmap : Nat → Finset Nat)
    (hsym : ∀ a b, a ∈ bmap b ↔ b ∈ bmap a) (n : Nat) :
    ColorInv bmap n (colorPieces bmap n) := by
  induction n with
  | zero =>
    refine ⟨fun k _ => rfl, fun k hk => absurd hk (Nat.not_lt_zero k),
      fun k hk => absurd hk (Nat.not_lt_zero k),
      fun a b ha => absurd ha (Nat.not_lt_zero a)⟩
  | succ n ihn =>
    have hstep : colorPieces bmap (n + 1) = colorStep bmap (colorPieces bmap n) n := by
      unfold colorPieces
      rw [List.range_succ, List.foldl_append]
      rfl
    rw [hstep]
    exact colorStep_inv bmap hsym n _ ihn


/-! ## Claim C3: first-fit coloring and properness -/

/-- C3: the colorer processes pieces in increasing id order, assigning each
piece the smallest non-negative integer not already assigned to any of its
bordering pieces (so a new color value appears only when every smaller one
is excluded), and bordering pieces never share a color. -/
theorem coloring_first_fit (g : FieldGrid) (hwf : WellFormed g)
    (pieces : List (List Tile)) (hdec : decompose g = some pieces)
    (m : Nat → Finset Nat) (hm : borderingPiecesMap g pieces = some m) :
    (∀ i, i < pieces.length → ∃ c,
      (colorPieces m pieces.length).1 i = some c ∧
      (∀ b ∈ m i, b < i → (colorPieces m pieces.length).1 b ≠ some c) ∧
      (∀ c2, c2 < c → ∃ b ∈ m i, b < i ∧
        (colorPieces m pieces.length).1 b = some c2)) ∧
    (∀ A B, B ∈ m A →
      (colorPieces m pieces.length).1 A ≠ (colorPieces m pieces.length).1 B) := by
  have hsym : ∀ a b, a ∈ m b ↔ b ∈ m a := by
    intro a b
    exact (borderingMap_spec g hwf pieces hdec m hm b a).2
  have hinv := colorPieces_inv m hsym pieces.length
  constructor
  · intro i hi
    obtain ⟨c, hc, hlt⟩ := hinv.assigned i hi
    obtain ⟨hl1, hl2⟩ := hinv.least i hi c hc
    exact ⟨c, hc, hl1, hl2⟩
  · intro A B hAB
    obtain ⟨hne, t, n, -, -, hA, hB⟩ :=
      (borderingMap_spec g hwf pieces hdec m hm A B).1.mp hAB
    exact hinv.proper A B (tileToPieceId_mem hA).1 (tileToPieceId_mem hB).1 hAB hne


/-! ## Geometry synthesis -/

/-- `GridSettings` (millimetre dimensions as exact rationals). -/
structure GridSettings where
  tile_height_mm : ℚ
  tile_side_mm : ℚ
  gap_mm : ℚ
  eps : ℚ := 1 / 100

/-- `large_grid_settings`. -/
def large_grid_settings : GridSettings :=
  { tile_height_mm := 6, tile_side_mm := 6, gap_mm := 1 / 2 }

/-- `small_grid_settings`. -/
def small_grid_settings : GridSettings :=
  { tile_height_mm := 18 / 5, tile_side_mm := 18 / 5, gap_mm := 1 / 2 }

/-- `tilegap_mm = tile_side_mm + gap_mm`. -/
def GridSettings.tilegap (s : GridSettings) : ℚ := s.tile_side_mm + s.gap_mm

/-- The solid-geometry primitives the renderer emits (the subset of the
SCAD builder the source uses). -/
inductive Scad where
  | cube : ℚ × ℚ × ℚ → Scad
  | translate : ℚ × ℚ × ℚ → Scad → Scad
  | union : List Scad → Scad
  | color : ℚ × ℚ × ℚ → Scad → Scad
  | difference : Scad → Scad → Scad

/-- Python float `%` on the arguments used by `rainbow_stop_rgb`
(all non-negative), modelled on rationals. -/
def qmod12 (k : ℚ) : ℚ := k - 12 * (⌊k / 12⌋ : ℤ)

/-- `rainbow_stop_rgb`'s inner `f` (the source computes this in binary
floating point; no claim depends on the numeric color values). -/
def rainbow_f (h : ℚ) (n : ℚ) : ℚ :=
  1 / 2 - 1 / 2 * max (min (min (qmod12 (n + h * 12) - 3) (9 - qmod12 (n + h * 12))) 1) (-1)

/-- `rainbow_stop_rgb`. -/
def rainbow_stop_rgb (h : ℚ) : ℚ × ℚ × ℚ := (rainbow_f h 0, rainbow_f h 8, rainbow_f h 4)

/-- `piece_color`: dict lookup of the color id, then the hue function at
`color_id / num_used_colors`. -/
def piece_color (cm : Nat → Option Nat) (numUsed : Nat) (pid : Nat) :
    Option (ℚ × ℚ × ℚ) :=
  match cm pid with
  | none => none
  | some cid => some (rainbow_stop_rgb ((cid : ℚ) / (numUsed : ℚ)))

/-- The solid emitted for one tile: a `tile_side × tile_side × tile_height`
cube translated to `(y * tilegap, x * tilegap, 0)` (grid axes swapped in
output space), wrapped in the piece color. -/
def tileCuboid (s : GridSettings) (rgb : ℚ × ℚ × ℚ) (t : Tile) : Scad :=
  Scad.color rgb (Scad.translate ((t.2 : ℚ) * s.tilegap, (t.1 : ℚ) * s.tilegap, 0)
    (Scad.cube (s.tile_side_mm, s.tile_side_mm, s.tile_height_mm)))

/-- The tile-objects loop: one solid per entry of each piece's tile list,
with the piece id and color looked up per tile (dict accesses that can
fail). -/
def pieceTileObjects (s : GridSettings) (pieces : List (List Tile))
    (cm : Nat → Option Nat) (numUsed : Nat) : Option (List (List Scad)) :=
  pieces.mapM (fun tiles => tiles.mapM (fun t =>
    match tileToPieceId pieces t with
    | none => none
    | some pid =>
        match piece_color cm numUsed pid with
        | none => none
        | some rgb => some (tileCuboid s rgb t)))

/-- `piece_id_of_horiz_gap`.  The arithmetic on the involved index follows
the source over the integers: a negative coordinate is never a key of the
tile-to-piece-id dict, so the lookup fails exactly as the source's
`KeyError`. -/
def piece_id_of_horiz_gap (g : FieldGrid) (pieces : List (List Tile))
    (x y : Nat) : Option Nat :=
  let xi : Int := if (x : Int) < (g.numX : Int) - 1 then (x : Int) else (x : Int) - 1
  if xi < 0 then none else tileToPieceId pieces (xi.toNat, y)

/-- `piece_id_of_vert_gap` (see `piece_id_of_horiz_gap`). -/
def piece_id_of_vert_gap (g : FieldGrid) (pieces : List (List Tile))
    (x y : Nat) : Option Nat :=
  let yi : Int := if (y : Int) < (g.numY : Int) - 1 then (y : Int) else (y : Int) - 1
  if yi < 0 then none else tileToPieceId pieces (x, yi.toNat)

/-- `piece_id_of_gap_corner` (see `piece_id_of_horiz_gap`). -/
def piece_id_of_gap_corner (g : FieldGrid) (pieces : List (List Tile))
    (x y : Nat) : Option Nat :=
  let xi : Int := if (x : Int) < (g.numX : Int) - 1 then (x : Int) else (x : Int) - 1
  let yi : Int := if (y : Int) < (g.numY : Int) - 1 then (y : Int) else (y : Int) - 1
  if xi < 0 ∨ yi < 0 then none else tileToPieceId pieces (xi.toNat, yi.toNat)

/-- `piece_gap_objects[pid].append(o)` on the `defaultdict(list)`. -/
def appendAt (m : Nat → List Scad) (k : Nat) (o : Scad) : Nat → List Scad :=
  fun j => if j = k then m k ++ [o] else m j

/-- The bridging solid for a closed horizontal gap at `(x, y)`. -/
def horizGapCuboid (s : GridSettings) (x y : Nat) : Scad :=
  Scad.translate ((y : ℚ) * s.tilegap, (x : ℚ) * s.tilegap - s.gap_mm, 0)
    (Scad.cube (s.tile_side_mm, s.gap_mm, s.tile_height_mm))

/-- The bridging solid for a closed vertical gap at `(x, y)`. -/
def vertGapCuboid (s : GridSettings) (x y : Nat) : Scad :=
  Scad.translate ((y : ℚ) * s.tilegap - s.gap_mm, (x : ℚ) * s.tilegap, 0)
    (Scad.cube (s.gap_mm, s.tile_side_mm, s.tile_height_mm))

/-- The horizontal-gap loop: over all lanes of `horiz` (the debug tile
limit cuts lanes at `10000` and offsets at `10001`, a no-op for well-formed
grids), emitting a bridging solid for every stored `false`. -/
def horizGapObjects (g : FieldGrid) (s : GridSettings) (pieces : List (List Tile))
    (m0 : Nat → List Scad) : Option (Nat → List Scad) :=
  (g.horiz.take tileLimitDebug.2).enum.foldlM (fun m yl =>
    (yl.2.take (tileLimitDebug.1 + 1)).enum.foldlM (fun m2 xg =>
      if xg.2 then some m2
      else
        match piece_id_of_horiz_gap g pieces xg.1 yl.1 with
        | none => none
        | some pid => some (appendAt m2 pid (horizGapCuboid s xg.1 yl.1))) m) m0

/-- The vertical-gap loop (lanes cut at `10000`, offsets at `10001`). -/
def vertGapObjects (g : FieldGrid) (s : GridSettings) (pieces : List (List Tile))
    (m0 : Nat → List Scad) : Option (Nat → List Scad) :=
  (g.vert.take tileLimitDebug.1).enum.foldlM (fun m xl =>
    (xl.2.take (tileLimitDebug.2 + 1)).enum.foldlM (fun m2 yg =>
      if yg.2 then some m2
      else
        match piece_id_of_vert_gap g pieces xl.1 yg.1 with
        | none => none
        | some pid => some (appendAt m2 pid (vertGapCuboid s xl.1 yg.1))) m) m0

/-- `any_adjacent_gap_active` for corner `(x, y)`. -/
def anyAdjacentGapActive (g : FieldGrid) (x y : Nat) : Bool :=
  (decide (y ≠ 0) && g.horizAt (y - 1) x) ||
  (decide (y ≠ g.numY) && g.horizAt y x) ||
  (decide (x ≠ 0) && g.vertAt (x - 1) y) ||
  (decide (x ≠ g.numX) && g.vertAt x y)

/-- The source's emission condition for a corner filler at `(x, y)`:
`if not any_adjacent_gap_active: render`. -/
def cornerFillerEmitted (g : FieldGrid) (x y : Nat) : Bool :=
  !anyAdjacentGapActive g x y

/-- The small corner filler cube at corner `(x, y)`. -/
def cornerCuboid (s : GridSettings) (x y : Nat) : Scad :=
  Scad.translate ((y : ℚ) * s.tilegap - s.gap_mm, (x : ℚ) * s.tilegap - s.gap_mm, 0)
    (Scad.cube (s.gap_mm, s.gap_mm, s.tile_height_mm))

/-- The corner-filler double loop over `(NUM_TILES_X + 1) × (NUM_TILES_Y + 1)`
corners. -/
def cornerObjects (g : FieldGrid) (s : GridSettings) (pieces : List (List Tile)) :
    Option (Nat → List Scad) :=
  (List.range (g.numX + 1)).foldlM (fun m x =>
    (List.range (g.numY + 1)).foldlM (fun m2 y =>
      if cornerFillerEmitted g x y then
        match piece_id_of_gap_corner g pieces x y with
        | none => none
        | some pid => some (appendAt m2 pid (cornerCuboid s x y))
      else some m2) m) (fun _ => [])

/-- The final per-piece assembly: tiles, gaps and corner fillers of each
piece unioned and wrapped in the piece color. -/
def assemblePieceObjects (pieces : List (List Tile)) (cm : Nat → Option Nat)
    (numUsed : Nat) (tileObjs : List (List Scad)) (gapObjs cornerObjs : Nat → List Scad) :
    Option (List Scad) :=
  (List.range pieces.length).mapM (fun pid =>
    match piece_color cm numUsed pid with
    | none => none
    | some rgb =>
        some (Scad.color rgb
          (Scad.union (tileObjs.getD pid [] ++ gapObjs pid ++ cornerObjs pid))))

/-- The result of `makeGrid` (loop-local tables exposed as fields so that
the claims can speak about them). -/
structure MadeGrid where
  pieces : List (List Tile)
  pieceTileObjs : List (List Scad)
  gapObjs : Nat → List Scad
  cornerObjs : Nat → List Scad
  pieceObjects : List Scad
  colorMap : Nat → Option Nat
  numUsed : Nat
  numX : Nat
  numY : Nat

/-- `makeGrid`: decomposition, bordering, coloring and geometry synthesis
for one loaded grid, `none` standing for a Python runtime error. -/
def makeGridModel (s : GridSettings) (g : FieldGrid) : Option MadeGrid := do
  let pieces ← decompose g
  let bmap ← borderingPiecesMap g pieces
  let st := colorPieces bmap pieces.length
  let tileObjs ← pieceTileObjects s pieces st.1 st.2
  let gm1 ← horizGapObjects g s pieces (fun _ => [])
  let gm2 ← vertGapObjects g s pieces gm1
  let corners ← cornerObjects g s pieces
  let pobjs ← assemblePieceObjects pieces st.1 st.2 tileObjs gm2 corners
  pure { pieces := pieces, pieceTileObjs := tileObjs, gapObjs := gm2,
         cornerObjs := corners, pieceObjects := pobjs, colorMap := st.1,
         numUsed := st.2, numX := g.numX, numY := g.numY }

/-- Modelled from the spec: frame emission is absent from
`grid-renderer-scad.py` (its `makeGrid` never reads the `add_frame`
attribute `main` sets); per §4.4 of the specification, a run with frame
generation enabled emits one rectangular frame solid — an outer box minus
an inner cavity sized to enclose the full tile lattice plus tolerance —
and a run without it emits none. -/
def frameObjects (s : GridSettings) (addFrame : Bool) (numX numY : Nat) : List Scad :=
  if addFrame then
    [Scad.difference
      (Scad.translate (-(s.gap_mm + s.eps), -(s.gap_mm + s.eps), 0)
        (Scad.cube ((numY : ℚ) * s.tilegap - s.gap_mm + 2 * (s.gap_mm + s.eps),
          (numX : ℚ) * s.tilegap - s.gap_mm + 2 * (s.gap_mm + s.eps),
          s.tile_height_mm)))
      (Scad.translate (-s.eps, -s.eps, 0)
        (Scad.cube ((numY : ℚ) * s.tilegap - s.gap_mm + 2 * s.eps,
          (numX : ℚ) * s.tilegap - s.gap_mm + 2 * s.eps, s.tile_height_mm)))]
  else []


/-! ## Claim C4: the corner-filler emission condition -/

/-- The 2×2 grid with every gap bridged (every stored boolean `false`),
used as a concrete counterexample input. -/
def sampleAllClosed22 : FieldGrid :=
  { horiz := [[false, false, false], [false, false, false]]
    vert := [[false, false, false], [false, false, false]] }

/-- The 1×1 grid with its four gaps open, a concrete all-open input. -/
def gOpen11 : FieldGrid := { horiz := [[true, true]], vert := [[true, true]] }

/-- A malformed grid: `vert` has two rows although `len(horiz[0]) - 1 = 1`,
so the spec's size-consistency check fails; the source never performs it. -/
def gmalSample : FieldGrid :=
  { horiz := [[true, true]], vert := [[true, true], [true, true]] }

/-- A zero-tile grid (`len(horiz[0]) - 1 = 0`). -/
def gzeroSample : FieldGrid := { horiz := [[true]], vert := [[true]] }

/-- `decompose sampleAllClosed22` (checked below): one piece with five
entries over four distinct tiles. -/
def sampleClosedPieces : List (List Tile) := [[(0, 0), (0, 1), (1, 1), (1, 0), (1, 0)]]

/-- The bordering map of the single-piece 2×2 grid: no piece borders
another. -/
def bm22 : Nat → Finset Nat := fun _ => ∅

/-- The tile objects of the one-tile piece list `[[(0, 0)]]` under a fixed
one-color map (a concrete witness value). -/
def tileObjsW : List (List Scad) :=
  (pieceTileObjects large_grid_settings [[(0, 0)]] (fun _ => some 0) 1).getD []

/-- The emission condition claim C4 states, following the specification's
words: no gap adjacent to the corner (of up to four) carries a bridge,
where bridge present means stored value `false` — i.e. every existing
adjacent gap is stored `true`. -/
def NoAdjacentGapBridged (g : FieldGrid) (x y : Nat) : Prop :=
  (y ≠ 0 → g.horizAt (y - 1) x = true) ∧ (y ≠ g.numY → g.horizAt y x = true) ∧
  (x ≠ 0 → g.vertAt (x - 1) y = true) ∧ (x ≠ g.numX → g.vertAt x y = true)

instance (g : FieldGrid) (x y : Nat) : Decidable (NoAdjacentGapBridged g x y) := by
  unfold NoAdjacentGapBridged; infer_instance

/-- Every existing gap adjacent to the corner carries a bridge (stored
value `false`) — the condition the source actually emits fillers under. -/
def AllAdjacentGapsBridged (g : FieldGrid) (x y : Nat) : Prop :=
  (y ≠ 0 → g.horizAt (y - 1) x = false) ∧ (y ≠ g.numY → g.horizAt y x = false) ∧
  (x ≠ 0 → g.vertAt (x - 1) y = false) ∧ (x ≠ g.numX → g.vertAt x y = false)

instance (g : FieldGrid) (x y : Nat) : Decidable (AllAdjacentGapsBridged g x y) := by
  unfold AllAdjacentGapsBridged; infer_instance

/-- C4 counterexample: on the 2×2 grid with every gap bridged (stored
`false`), the source emits a corner filler at the interior corner `(1, 1)`
— indeed one filler per corner, 9 in total — although every adjacent gap
carries a bridge, so the claimed condition "no adjacent gap carries a
bridge" is false there; as stated, the claim fails. -/
theorem cornerFiller_claim_counterexample :
    ((makeGridModel large_grid_settings sampleAllClosed22).map
      (fun mg => (mg.cornerObjs 0).length) = some 9) ∧
    cornerFillerEmitted sampleAllClosed22 1 1 = true ∧
    ¬NoAdjacentGapBridged sampleAllClosed22 1 1 ∧
    ¬(cornerFillerEmitted sampleAllClosed22 1 1 = true ↔
        NoAdjacentGapBridged sampleAllClosed22 1 1) :=
  And.intro (by decide) (And.intro (by decide) (And.intro (by decide) (by decide)))

/-- The source's corner-filler emission condition holds exactly when every
existing adjacent gap carries a bridge (helper for claims C4 and C10). -/
theorem cornerEmitted_iff_allBridged (g : FieldGrid) (x y : Nat) :
    cornerFillerEmitted g x y = true ↔ AllAdjacentGapsBridged g x y := by
  unfold cornerFillerEmitted anyAdjacentGapActive AllAdjacentGapsBridged
  simp only [Bool.not_eq_true', Bool.or_eq_false_iff, Bool.and_eq_false_iff,
    decide_eq_false_iff_not, not_not]
  constructor
  · rintro ⟨⟨⟨h1, h2⟩, h3⟩, h4⟩
    refine ⟨?_, ?_, ?_, ?_⟩
    · intro h
      rcases h1 with h1 | h1
      · exact absurd h1 h
      · exact h1
    · intro h
      rcases h2 with h2 | h2
      · exact absurd h2 h
      · exact h2
    · intro h
      rcases h3 with h3 | h3
      · exact absurd h3 h
      · exact h3
    · intro h
      rcases h4 with h4 | h4
      · exact absurd h4 h
      · exact h4
  · rintro ⟨h1, h2, h3, h4⟩
    refine ⟨⟨⟨?_, ?_⟩, ?_⟩, ?_⟩
    · by_cases h : y = 0
      · exact Or.inl (by simpa using h)
      · exact Or.inr (h1 h)
    · by_cases h : y = g.numY
      · exact Or.inl (by simpa using h)
      · exact Or.inr (h2 h)
    · by_cases h : x = 0
      · exact Or.inl (by simpa using h)
      · exact Or.inr (h3 h)
    · by_cases h : x = g.numX
      · exact Or.inl (by simpa using h)
      · exact Or.inr (h4 h)


/-! ## Claim C10: piece attribution of gap and corner solids -/

/-- The grid tiles adjacent to corner `(x, y)`: up to four, at coordinates
`(x-1 | x, y-1 | y)`, clipped to the tile grid. -/
def cornerAdjTiles (g : FieldGrid) (x y : Nat) : List Tile :=
  (if 0 < x ∧ 0 < y then [(x - 1, y - 1)] else []) ++
  (if x < g.numX ∧ 0 < y then [(x, y - 1)] else []) ++
  (if 0 < x ∧ y < g.numY then [(x - 1, y)] else []) ++
  (if x < g.numX ∧ y < g.numY then [(x, y)] else [])

lemma mem_cornerAdjTiles {g : FieldGrid} {x y : Nat} {t : Tile} :
    t ∈ cornerAdjTiles g x y ↔
      ((0 < x ∧ 0 < y) ∧ t = (x - 1, y - 1)) ∨
      ((x < g.numX ∧ 0 < y) ∧ t = (x, y - 1)) ∨
      ((0 < x ∧ y < g.numY) ∧ t = (x - 1, y)) ∨
      ((x < g.numX ∧ y < g.numY) ∧ t = (x, y)) := by
  simp only [cornerAdjTiles, List.mem_append, mem_ite_singleton]
  tauto

lemma cornerAdjTiles_inBox {g : FieldGrid} {x y : Nat} {t : Tile}
    (h : t ∈ cornerAdjTiles g x y) (hx : x ≤ g.numX) (hy : y ≤ g.numY) :
    InBox g t := by
  rcases mem_cornerAdjTiles.mp h with ⟨⟨h1, h2⟩, rfl⟩ | ⟨⟨h1, h2⟩, rfl⟩ |
    ⟨⟨h1, h2⟩, rfl⟩ | ⟨⟨h1, h2⟩, rfl⟩ <;> exact ⟨by omega, by omega⟩

/-- Any two tiles adjacent to a corner whose surrounding gaps are all
bridged are joined by closed-gap paths around that corner. -/
lemma cornerAdj_reach {g : FieldGrid} {x y : Nat} (hx : x ≤ g.numX)
    (hy : y ≤ g.numY) (hb : AllAdjacentGapsBridged g x y) :
    ∀ a ∈ cornerAdjTiles g x y, ∀ b ∈ cornerAdjTiles g x y, Reach g a b := by
  obtain ⟨hb1, hb2, hb3, hb4⟩ := hb
  -- the four possible closed-gap steps around the corner
  have hBA : 0 < x → 0 < y → GapStep g (x, y - 1) (x - 1, y - 1) := by
    intro h1 h2
    rw [GapStep, mem_connectedDirectNeighborTiles]
    exact Or.inl ⟨h1, by rw [hb1 (by omega)]; simp, rfl⟩
  have hDC : 0 < x → y < g.numY → GapStep g (x, y) (x - 1, y) := by
    intro h1 h2
    rw [GapStep, mem_connectedDirectNeighborTiles]
    exact Or.inl ⟨h1, by rw [hb2 (by omega)]; simp, rfl⟩
  have hCA : x < g.numX → 0 < x → 0 < y → GapStep g (x - 1, y) (x - 1, y - 1) := by
    intro h0 h1 h2
    rw [GapStep, mem_connectedDirectNeighborTiles]
    exact Or.inr (Or.inr (Or.inl ⟨h2, by rw [hb3 (by omega)]; simp, rfl⟩))
  have hCA2 : x = g.numX → 0 < x → 0 < y → GapStep g (x - 1, y) (x - 1, y - 1) := by
    intro h0 h1 h2
    rw [GapStep, mem_connectedDirectNeighborTiles]
    exact Or.inr (Or.inr (Or.inl ⟨h2, by rw [hb3 (by omega)]; simp, rfl⟩))
  have hDB : x < g.numX → 0 < y → GapStep g (x, y) (x, y - 1) := by
    intro h1 h2
    rw [GapStep, mem_connectedDirectNeighborTiles]
    exact Or.inr (Or.inr (Or.inl ⟨h2, by rw [hb4 (by omega)]; simp, rfl⟩))
  -- boxes
  have boxD : x < g.numX → y < g.numY → InBox g (x, y) := fun h1 h2 => ⟨h1, h2⟩
  have boxB : x < g.numX → 0 < y → InBox g (x, y - 1) := fun h1 h2 => ⟨h1, by omega⟩
  have boxC : 0 < x → y < g.numY → InBox g (x - 1, y) := fun h1 h2 => ⟨by omega, h2⟩
  intro a ha b hbmem
  have hCAx : 0 < x → 0 < y → GapStep g (x - 1, y) (x - 1, y - 1) → True := fun _ _ _ => trivial
  -- combined step: C to A regardless of whether x < numX or x = numX
  have hCAall : 0 < x → 0 < y → y < g.numY → GapStep g (x - 1, y) (x - 1, y - 1) := by
    intro h1 h2 h3
    rcases Nat.lt_or_ge x g.numX with h | h
    · exact hCA h h1 h2
    · exact hCA2 (by omega) h1 h2
  rcases mem_cornerAdjTiles.mp ha with ⟨⟨a1, a2⟩, rfl⟩ | ⟨⟨a1, a2⟩, rfl⟩ |
    ⟨⟨a1, a2⟩, rfl⟩ | ⟨⟨a1, a2⟩, rfl⟩ <;>
    rcases mem_cornerAdjTiles.mp hbmem with ⟨⟨b1, b2⟩, rfl⟩ | ⟨⟨b1, b2⟩, rfl⟩ |
      ⟨⟨b1, b2⟩, rfl⟩ | ⟨⟨b1, b2⟩, rfl⟩
  -- a = A
  · exact Relation.ReflTransGen.refl
  · exact reach_symm (boxB b1 b2) (Relation.ReflTransGen.single (hBA a1 a2))
  · exact reach_symm (boxC a1 b2) (Relation.ReflTransGen.single (hCAall a1 a2 b2))
  · exact reach_symm (boxD b1 b2)
      ((Relation.ReflTransGen.single (hDB b1 a2)).trans
        (Relation.ReflTransGen.single (hBA a1 a2)))
  -- a = B
  · exact Relation.ReflTransGen.single (hBA b1 a2)
  · exact Relation.ReflTransGen.refl
  · exact (Relation.ReflTransGen.single (hBA b1 a2)).trans
      (reach_symm (boxC b1 b2) (Relation.ReflTransGen.single (hCAall b1 a2 b2)))
  · exact reach_symm (boxD b1 b2) (Relation.ReflTransGen.single (hDB a1 a2))
  -- a = C
  · exact Relation.ReflTransGen.single (hCAall a1 b2 a2)
  · exact (Relation.ReflTransGen.single (hCAall a1 b2 a2)).trans
      (reach_symm (boxB b1 b2) (Relation.ReflTransGen.single (hBA a1 b2)))
  · exact Relation.ReflTransGen.refl
  · exact reach_symm (boxD b1 a2) (Relation.ReflTransGen.single (hDC a1 a2))
  -- a = D
  · exact (Relation.ReflTransGen.single (hDB a1 b2)).trans
      (Relation.ReflTransGen.single (hBA b1 b2))
  · exact Relation.ReflTransGen.single (hDB a1 b2)
  · exact Relation.ReflTransGen.single (hDC b1 a2)
  · exact Relation.ReflTransGen.refl


/-- Tiles joined by a closed-gap path receive the same (defined) piece id. -/
lemma sameId_of_reach (g : FieldGrid) (hwf : WellFormed g)
    (pieces : List (List Tile)) (hdec : decompose g = some pieces)
    {t1 t2 : Tile} (h1 : InBox g t1) (hr : Reach g t1 t2) :
    tileToPieceId pieces t1 = tileToPieceId pieces t2 ∧
      (tileToPieceId pieces t1).isSome := by
  have h2 : InBox g t2 := reach_inBox h1 hr
  obtain ⟨i, e1, e2⟩ := (sameId_iff_reach g hwf pieces hdec t1 t2 h1 h2).mpr hr
  rw [e1, e2]
  exact ⟨rfl, rfl⟩

/-- C10: a bridging solid for a closed gap with tiles on both sides joins
tiles of one piece, and a corner filler's adjacent tiles (up to four) all
belong to one piece, so the consulted-tile choice in
`piece_id_of_horiz_gap` / `piece_id_of_vert_gap` / `piece_id_of_gap_corner`
does not matter. -/
theorem solid_attribution (g : FieldGrid) (hwf : WellFormed g)
    (pieces : List (List Tile)) (hdec : decompose g = some pieces) :
    (∀ x y, 1 ≤ x → x ≤ g.numX - 1 → y < g.numY → g.horizAt y x = false →
      tileToPieceId pieces (x - 1, y) = tileToPieceId pieces (x, y) ∧
        (tileToPieceId pieces (x, y)).isSome) ∧
    (∀ x y, 1 ≤ y → y ≤ g.numY - 1 → x < g.numX → g.vertAt x y = false →
      tileToPieceId pieces (x, y - 1) = tileToPieceId pieces (x, y) ∧
        (tileToPieceId pieces (x, y)).isSome) ∧
    (∀ x y, x ≤ g.numX → y ≤ g.numY → cornerFillerEmitted g x y = true →
      ∀ a ∈ cornerAdjTiles g x y, ∀ b ∈ cornerAdjTiles g x y,
        tileToPieceId pieces a = tileToPieceId pieces b ∧
          (tileToPieceId pieces a).isSome) := by
  refine ⟨?_, ?_, ?_⟩
  · intro x y hx1 hx2 hy hgap
    have hxlt : x < g.numX := by omega
    have hbox : InBox g (x, y) := ⟨hxlt, hy⟩
    have hstep : GapStep g (x, y) (x - 1, y) := by
      rw [GapStep, mem_connectedDirectNeighborTiles]
      exact Or.inl ⟨hx1, by rw [hgap]; simp, rfl⟩
    have := sameId_of_reach g hwf pieces hdec hbox
      (Relation.ReflTransGen.single hstep)
    exact ⟨this.1.symm, this.2⟩
  · intro x y hy1 hy2 hx hgap
    have hylt : y < g.numY := by omega
    have hbox : InBox g (x, y) := ⟨hx, hylt⟩
    have hstep : GapStep g (x, y) (x, y - 1) := by
      rw [GapStep, mem_connectedDirectNeighborTiles]
      exact Or.inr (Or.inr (Or.inl ⟨hy1, by rw [hgap]; simp, rfl⟩))
    have := sameId_of_reach g hwf pieces hdec hbox
      (Relation.ReflTransGen.single hstep)
    exact ⟨this.1.symm, this.2⟩
  · intro x y hx hy hem a ha b hbmem
    have hbridged : AllAdjacentGapsBridged g x y :=
      (cornerEmitted_iff_allBridged g x y).mp hem
    have hreach := cornerAdj_reach hx hy hbridged a ha b hbmem
    exact sameId_of_reach g hwf pieces hdec (cornerAdjTiles_inBox ha hx hy) hreach


/-! ## Inversion of the geometry pipeline -/

theorem mapM_some_forall2 {α β : Type} (f : α → Option β) :
    ∀ (l : List α) (l2 : List β),
      l.mapM f = some l2 → List.Forall₂ (fun a b => f a = some b) l l2 := by
  intro l
  induction l with
  | nil =>
    intro l2 h
    simp only [List.mapM_nil, pure, Option.some.injEq] at h
    subst h
    exact List.Forall₂.nil
  | cons a as ih =>
    intro l2 h
    rw [List.mapM_cons] at h
    cases hfa : f a with
    | none => rw [hfa] at h; simp at h
    | some b =>
      rw [hfa] at h
      simp only [Option.bind_eq_bind, Option.some_bind] at h
      cases hrest : as.mapM f with
      | none => rw [hrest] at h; simp at h
      | some bs =>
        rw [hrest] at h
        simp only [Option.some_bind] at h
        have h2 : b :: bs = l2 := by
          simpa [pure] using h
        subst h2
        exact List.Forall₂.cons hfa (ih bs hrest)

theorem mapM_isSome {α β : Type} (f : α → Option β) :
    ∀ (l : List α), (∀ a ∈ l, (f a).isSome) → (l.mapM f).isSome := by
  intro l
  induction l with
  | nil => intro _; rfl
  | cons a as ih =>
    intro h
    rw [List.mapM_cons]
    obtain ⟨b, hb⟩ := Option.isSome_iff_exists.mp (h a (List.mem_cons_self a as))
    rw [hb]
    simp only [Option.bind_eq_bind, Option.some_bind]
    obtain ⟨bs, hbs⟩ := Option.isSome_iff_exists.mp
      (ih (fun u hu => h u (List.mem_cons_of_mem a hu)))
    rw [hbs]
    simp [pure]

/-- Unpacks a successful `makeGridModel` run into its stages. -/
theorem makeGridModel_inv {s : GridSettings} {g : FieldGrid} {mg : MadeGrid}
    (h : makeGridModel s g = some mg) :
    decompose g = some mg.pieces ∧
    (∃ bmap, borderingPiecesMap g mg.pieces = some bmap ∧
      mg.colorMap = (colorPieces bmap mg.pieces.length).1 ∧
      mg.numUsed = (colorPieces bmap mg.pieces.length).2) ∧
    pieceTileObjects s mg.pieces mg.colorMap mg.numUsed = some mg.pieceTileObjs ∧
    (∃ gm1, horizGapObjects g s mg.pieces (fun _ => []) = some gm1 ∧
      vertGapObjects g s mg.pieces gm1 = some mg.gapObjs) ∧
    cornerObjects g s mg.pieces = some mg.cornerObjs ∧
    assemblePieceObjects mg.pieces mg.colorMap mg.numUsed mg.pieceTileObjs
      mg.gapObjs mg.cornerObjs = some mg.pieceObjects ∧
    mg.numX = g.numX ∧ mg.numY = g.numY := by
  unfold makeGridModel at h
  cases hdec : decompose g with
  | none => rw [hdec] at h; cases h
  | some pieces =>
  rw [hdec] at h
  simp only [Option.bind_eq_bind, Option.some_bind] at h
  cases hb : borderingPiecesMap g pieces with
  | none => rw [hb] at h; cases h
  | some bmap =>
  rw [hb] at h
  simp only [Option.some_bind] at h
  cases hto : pieceTileObjects s pieces (colorPieces bmap pieces.length).1
      (colorPieces bmap pieces.length).2 with
  | none => rw [hto] at h; cases h
  | some tileObjs =>
  rw [hto] at h
  simp only [Option.some_bind] at h
  cases hg1 : horizGapObjects g s pieces (fun _ => []) with
  | none => rw [hg1] at h; cases h
  | some gm1 =>
  rw [hg1] at h
  simp only [Option.some_bind] at h
  cases hg2 : vertGapObjects g s pieces gm1 with
  | none => rw [hg2] at h; cases h
  | some gm2 =>
  rw [hg2] at h
  simp only [Option.some_bind] at h
  cases hc : cornerObjects g s pieces with
  | none => rw [hc] at h; cases h
  | some corners =>
  rw [hc] at h
  simp only [Option.some_bind] at h
  cases hassem : assemblePieceObjects pieces (colorPieces bmap pieces.length).1
      (colorPieces bmap pieces.length).2 tileObjs gm2 corners with
  | none => rw [hassem] at h; cases h
  | some pobjs =>
  rw [hassem] at h
  simp only [Option.some_bind] at h
  have hmg := h
  simp only [Option.pure_def, Option.some.injEq] at hmg
  subst hmg
  dsimp only
  exact ⟨rfl, ⟨bmap, hb, rfl, rfl⟩, hto, ⟨gm1, hg1, hg2⟩, hc, hassem, rfl, rfl⟩


/-! ## Claim C5: tile solids -/

/-- Structure of the emitted tile solids: one solid per entry of each
piece's tile list, each a `tile_side × tile_side × tile_height` cube
translated to `(y·(tile_side+gap), x·(tile_side+gap), 0)` in the piece's
color (helper for claims C5 and C8). -/
theorem pieceTileObjects_spec {s : GridSettings} {pieces : List (List Tile)}
    {cm : Nat → Option Nat} {numUsed : Nat} {tileObjs : List (List Scad)}
    (h : pieceTileObjects s pieces cm numUsed = some tileObjs) :
    List.Forall₂ (fun tiles objs => List.Forall₂ (fun t o => ∃ pid rgb,
      tileToPieceId pieces t = some pid ∧
      piece_color cm numUsed pid = some rgb ∧
      o = tileCuboid s rgb t) tiles objs) pieces tileObjs := by
  have hf2 := mapM_some_forall2 _ _ _ h
  apply List.Forall₂.imp ?_ hf2
  intro tiles objs hrel
  have hf3 := mapM_some_forall2 _ _ _ hrel
  apply List.Forall₂.imp ?_ hf3
  intro t o hto
  cases hp : tileToPieceId pieces t with
  | none => rw [hp] at hto; cases hto
  | some pid =>
    rw [hp] at hto
    dsimp only at hto
    cases hc : piece_color cm numUsed pid with
    | none => rw [hc] at hto; cases hto
    | some rgb =>
      rw [hc] at hto
      dsimp only at hto
      simp only [Option.some.injEq] at hto
      exact ⟨pid, rgb, rfl, hc, hto.symm⟩

/-- C5 counterexample: on the 2×2 grid with every gap bridged the single
piece's tile list has five entries over four distinct tiles (the floodfill
pops a tile twice), so the emitted tile-solid list has five solids — not
"exactly one entry per distinct tile of the piece". -/
theorem tile_solids_claim_counterexample :
    (makeGridModel large_grid_settings sampleAllClosed22).map
        (fun mg => ((mg.pieceTileObjs.getD 0 []).length,
          ((mg.pieces.getD 0 []).dedup).length)) = some (5, 4) := by
  decide


/-! ## Claim C8: geometry of an all-open grid -/

/-- Every stored gap boolean of the grid is `true` (gap open). -/
def AllOpen (g : FieldGrid) : Prop :=
  (∀ row ∈ g.horiz, ∀ b ∈ row, b = true) ∧ (∀ row ∈ g.vert, ∀ b ∈ row, b = true)

instance (g : FieldGrid) : Decidable (AllOpen g) := by
  unfold AllOpen; infer_instance

lemma horizAt_eq_true {g : FieldGrid} (hwf : WellFormed g) (ho : AllOpen g)
    {y x : Nat} (hy : y < g.numY) (hx : x ≤ g.numX) : g.horizAt y x = true := by
  obtain ⟨hl, -, hrow, -⟩ := hwf
  have hylen : y < g.horiz.length := by omega
  unfold FieldGrid.horizAt
  rw [List.getD_eq_get _ _ hylen]
  have hmem := g.horiz.get_mem y hylen
  have hxlen : x < (g.horiz.get ⟨y, hylen⟩).length := by
    rw [hrow _ hmem]
    omega
  rw [List.getD_eq_get _ _ hxlen]
  exact ho.1 _ hmem _ (List.get_mem _ _ _)

lemma vertAt_eq_true {g : FieldGrid} (hwf : WellFormed g) (ho : AllOpen g)
    {x y : Nat} (hx : x < g.numX) (hy : y ≤ g.numY) : g.vertAt x y = true := by
  obtain ⟨-, hl, -, hrow⟩ := hwf
  have hxlen : x < g.vert.length := by omega
  unfold FieldGrid.vertAt
  rw [List.getD_eq_get _ _ hxlen]
  have hmem := g.vert.get_mem x hxlen
  have hylen : y < (g.vert.get ⟨x, hxlen⟩).length := by
    rw [hrow _ hmem]
    omega
  rw [List.getD_eq_get _ _ hylen]
  exact ho.2 _ hmem _ (List.get_mem _ _ _)

lemma connectedNeighbors_allOpen {g : FieldGrid} (hwf : WellFormed g)
    (ho : AllOpen g) {t : Tile} (ht : InBox g t) :
    connectedDirectNeighborTiles g t = [] := by
  obtain ⟨x, y⟩ := t
  obtain ⟨hx, hy⟩ := ht
  unfold connectedDirectNeighborTiles
  have h1 : ¬(0 < x ∧ ¬g.horizAt y x) := by
    rintro ⟨-, hgap⟩
    exact hgap (horizAt_eq_true hwf ho hy (by omega))
  have h2 : ¬(x < g.numX - 1 ∧ ¬g.horizAt y (x + 1)) := by
    rintro ⟨hlt, hgap⟩
    exact hgap (horizAt_eq_true hwf ho hy (by omega))
  have h3 : ¬(0 < y ∧ ¬g.vertAt x y) := by
    rintro ⟨-, hgap⟩
    exact hgap (vertAt_eq_true hwf ho hx (by omega))
  have h4 : ¬(y < g.numY - 1 ∧ ¬g.vertAt x (y + 1)) := by
    rintro ⟨hlt, hgap⟩
    exact hgap (vertAt_eq_true hwf ho hx (by omega))
  simp [h1, h2, h3, h4]
  tauto

lemma floodfillPieceFrom_allOpen {g : FieldGrid} (hwf : WellFormed g)
    (ho : AllOpen g) {visited : List Tile} {t : Tile} (ht : InBox g t)
    (htv : t ∉ visited) :
    floodfillPieceFrom g visited t = some ([t], t :: visited) := by
  unfold floodfillPieceFrom
  have hfuel : floodfillFuel g = (floodfillFuel g - 1) + 1 := by
    unfold floodfillFuel
    omega
  rw [hfuel, floodfillAux_singleton]
  have hvis : ffVisited visited t = t :: visited := by
    simp [ffVisited, htv]
  rw [hvis]
  have hpush : ffPushed g (t :: visited) t = [] := by
    unfold ffPushed
    rw [connectedNeighbors_allOpen hwf ho ht]
    rfl
  rw [hpush]
  rfl

lemma decomposeAux_allOpen {g : FieldGrid} (hwf : WellFormed g) (ho : AllOpen g) :
    ∀ (ts : List Tile) (visited : List Tile) (pieces : List (List Tile)),
      (∀ t ∈ ts, InBox g t) → (∀ t ∈ ts, t ∉ visited) → ts.Nodup →
      ∃ v2, decomposeAux g ts visited pieces
        = some (pieces ++ ts.map (fun t => [t]), v2) := by
  intro ts
  induction ts with
  | nil =>
    intro visited pieces _ _ _
    exact ⟨visited, by simp [decomposeAux]⟩
  | cons t ts ih =>
    intro visited pieces hbox hfresh hnd
    rw [decomposeAux]
    rw [if_neg (hfresh t (List.mem_cons_self t ts))]
    rw [floodfillPieceFrom_allOpen hwf ho (hbox t (List.mem_cons_self t ts))
      (hfresh t (List.mem_cons_self t ts))]
    dsimp only
    have hnd2 := List.nodup_cons.mp hnd
    obtain ⟨v2, hv2⟩ := ih (t :: visited) (pieces ++ [[t]])
      (fun u hu => hbox u (List.mem_cons_of_mem t hu))
      (by
        intro u hu
        rw [List.mem_cons]
        rintro (rfl | hu2)
        · exact hnd2.1 hu
        · exact hfresh u (List.mem_cons_of_mem t hu) hu2)
      hnd2.2
    refine ⟨v2, ?_⟩
    rw [hv2]
    simp

lemma decompose_allOpen {g : FieldGrid} (hwf : WellFormed g) (ho : AllOpen g) :
    decompose g = some ((scanTiles g).map (fun t => [t])) := by
  unfold decompose
  obtain ⟨v2, hv2⟩ := decomposeAux_allOpen hwf ho (scanTiles g) [] []
    (fun t ht => mem_scanTiles.mp ht) (fun t _ h => absurd h (List.not_mem_nil t))
    (scanTiles_nodup g)
  rw [hv2]
  simp


lemma foldlM_id {α σ : Type} (f : σ → α → Option σ) :
    ∀ (l : List α), (∀ a ∈ l, ∀ st, f st a = some st) → ∀ m, l.foldlM f m = some m := by
  intro l
  induction l with
  | nil => intro _ m; rfl
  | cons a as ih =>
    intro h m
    have hstep : (a :: as).foldlM f m = f m a >>= fun b2 => as.foldlM f b2 := rfl
    rw [hstep, h a (List.mem_cons_self a as) m]
    simp only [Option.bind_eq_bind, Option.some_bind]
    exact ih (fun u hu => h u (List.mem_cons_of_mem a hu)) m

lemma enum_snd_mem {α : Type} {l : List α} {p : Nat × α} (h : p ∈ l.enum) : p.2 ∈ l := by
  obtain ⟨i, a⟩ := p
  exact List.get?_mem (List.mk_mem_enum_iff_get?.mp h)

lemma horizGapObjects_allOpen {g : FieldGrid} (ho : AllOpen g) (s : GridSettings)
    (pieces : List (List Tile)) (m0 : Nat → List Scad) :
    horizGapObjects g s pieces m0 = some m0 := by
  unfold horizGapObjects
  apply foldlM_id
  intro yl hyl m
  apply foldlM_id
  intro xg hxg st
  have hmem : xg.2 ∈ yl.2 := List.mem_of_mem_take (enum_snd_mem hxg)
  have hlane : yl.2 ∈ g.horiz := List.mem_of_mem_take (enum_snd_mem hyl)
  have : xg.2 = true := ho.1 _ hlane _ hmem
  rw [this]
  rfl

lemma vertGapObjects_allOpen {g : FieldGrid} (ho : AllOpen g) (s : GridSettings)
    (pieces : List (List Tile)) (m0 : Nat → List Scad) :
    vertGapObjects g s pieces m0 = some m0 := by
  unfold vertGapObjects
  apply foldlM_id
  intro xl hxl m
  apply foldlM_id
  intro yg hyg st
  have hmem : yg.2 ∈ xl.2 := List.mem_of_mem_take (enum_snd_mem hyg)
  have hlane : xl.2 ∈ g.vert := List.mem_of_mem_take (enum_snd_mem hxl)
  have : yg.2 = true := ho.2 _ hlane _ hmem
  rw [this]
  rfl

lemma cornerEmitted_false_allOpen {g : FieldGrid} (hwf : WellFormed g)
    (ho : AllOpen g) {x y : Nat} (hx : x ≤ g.numX) (hy : y ≤ g.numY)
    (hny : 1 ≤ g.numY) : cornerFillerEmitted g x y = false := by
  unfold cornerFillerEmitted anyAdjacentGapActive
  rcases Nat.lt_or_ge y g.numY with h | h
  · have hgap : g.horizAt y x = true := horizAt_eq_true hwf ho h hx
    have hne : y ≠ g.numY := by omega
    simp [hgap, hne]
  · have hyeq : y = g.numY := by omega
    have hne : y ≠ 0 := by omega
    have hgap : g.horizAt (y - 1) x = true := horizAt_eq_true hwf ho (by omega) hx
    simp [hgap, hne]

lemma cornerObjects_allOpen {g : FieldGrid} (hwf : WellFormed g) (ho : AllOpen g)
    (s : GridSettings) (pieces : List (List Tile)) (hny : 1 ≤ g.numY) :
    cornerObjects g s pieces = some (fun _ => []) := by
  unfold cornerObjects
  apply foldlM_id
  intro x hx m
  apply foldlM_id
  intro y hy st
  have hxle : x ≤ g.numX := by
    have := List.mem_range.mp hx
    omega
  have hyle : y ≤ g.numY := by
    have := List.mem_range.mp hy
    omega
  rw [cornerEmitted_false_allOpen hwf ho hxle hyle hny]
  rfl

lemma sum_map_lengths_of_forall2 {α β : Type} :
    ∀ {l1 : List (List α)} {l2 : List (List β)},
      List.Forall₂ (fun a b => a.length = b.length) l1 l2 →
      (l2.map List.length).sum = (l1.map List.length).sum := by
  intro l1 l2 h
  induction h with
  | nil => rfl
  | cons hab _ ih => simp [ih, hab]

lemma sum_map_one (l : List Tile) : (l.map (fun _ => 1)).sum = l.length := by
  induction l with
  | nil => rfl
  | cons a as ih => simp [ih, Nat.add_comm]


/-! ## Completeness of the geometry pipeline -/

lemma piece_color_isSome {g : FieldGrid} (hwf : WellFormed g)
    {pieces : List (List Tile)} (hdec : decompose g = some pieces)
    {bmap : Nat → Finset Nat} (hb : borderingPiecesMap g pieces = some bmap)
    {pid : Nat} (hpid : pid < pieces.length) :
    (piece_color (colorPieces bmap pieces.length).1
      (colorPieces bmap pieces.length).2 pid).isSome := by
  have hsym : ∀ a b, a ∈ bmap b ↔ b ∈ bmap a := fun a b =>
    (borderingMap_spec g hwf pieces hdec bmap hb b a).2
  obtain ⟨c, hc, -⟩ := (colorPieces_inv bmap hsym pieces.length).assigned pid hpid
  unfold piece_color
  rw [hc]
  rfl

lemma pieceTileObjects_isSome {g : FieldGrid} (hwf : WellFormed g)
    {pieces : List (List Tile)} (hdec : decompose g = some pieces)
    {bmap : Nat → Finset Nat} (hb : borderingPiecesMap g pieces = some bmap)
    (s : GridSettings) :
    (pieceTileObjects s pieces (colorPieces bmap pieces.length).1
      (colorPieces bmap pieces.length).2).isSome := by
  apply mapM_isSome
  intro tiles htiles
  apply mapM_isSome
  intro t ht
  have hbox : InBox g t := (decompose_spec g pieces hdec).1 tiles htiles t ht
  obtain ⟨pid, hpid⟩ := Option.isSome_iff_exists.mp
    (tileToPieceId_isSome_of_inBox hdec hbox)
  rw [hpid]
  dsimp only
  obtain ⟨rgb, hrgb⟩ := Option.isSome_iff_exists.mp
    (piece_color_isSome hwf hdec hb (tileToPieceId_mem hpid).1)
  rw [hrgb]
  rfl

lemma assemblePieceObjects_isSome {g : FieldGrid} (hwf : WellFormed g)
    {pieces : List (List Tile)} (hdec : decompose g = some pieces)
    {bmap : Nat → Finset Nat} (hb : borderingPiecesMap g pieces = some bmap)
    (tileObjs : List (List Scad)) (gapObjs cornerObjs : Nat → List Scad) :
    (assemblePieceObjects pieces (colorPieces bmap pieces.length).1
      (colorPieces bmap pieces.length).2 tileObjs gapObjs cornerObjs).isSome := by
  apply mapM_isSome
  intro pid hpid
  obtain ⟨rgb, hrgb⟩ := Option.isSome_iff_exists.mp
    (piece_color_isSome hwf hdec hb (List.mem_range.mp hpid))
  rw [hrgb]
  rfl

lemma foldlM_isSome {α σ : Type} (f : σ → α → Option σ) :
    ∀ (l : List α), (∀ a ∈ l, ∀ st, (f st a).isSome) →
      ∀ m, (l.foldlM f m).isSome := by
  intro l
  induction l with
  | nil => intro _ m; rfl
  | cons a as ih =>
    intro h m
    have hstep : (a :: as).foldlM f m = f m a >>= fun b2 => as.foldlM f b2 := rfl
    rw [hstep]
    obtain ⟨m2, hm2⟩ := Option.isSome_iff_exists.mp (h a (List.mem_cons_self a as) m)
    rw [hm2]
    simp only [Option.bind_eq_bind, Option.some_bind]
    exact ih (fun u hu => h u (List.mem_cons_of_mem a hu)) m2

lemma enum_fst_lt {α : Type} {l : List α} {p : Nat × α} (h : p ∈ l.enum) :
    p.1 < l.length := by
  obtain ⟨i, a⟩ := p
  have := List.mk_mem_enum_iff_get?.mp h
  rw [List.get?_eq_some] at this
  exact this.1

lemma piece_id_of_horiz_gap_isSome {g : FieldGrid} (hwf : WellFormed g)
    {pieces : List (List Tile)} (hdec : decompose g = some pieces)
    {x y : Nat} (hx : x ≤ g.numX) (hy : y < g.numY) (h2 : 2 ≤ g.numX) :
    (piece_id_of_horiz_gap g pieces x y).isSome := by
  simp only [piece_id_of_horiz_gap]
  by_cases hcase : (x : Int) < (g.numX : Int) - 1
  · rw [if_pos hcase, if_neg (by omega)]
    exact tileToPieceId_isSome_of_inBox hdec ⟨by simp; omega, hy⟩
  · rw [if_neg hcase, if_neg (by omega)]
    exact tileToPieceId_isSome_of_inBox hdec ⟨by simp; omega, hy⟩

lemma piece_id_of_vert_gap_isSome {g : FieldGrid} (hwf : WellFormed g)
    {pieces : List (List Tile)} (hdec : decompose g = some pieces)
    {x y : Nat} (hy : y ≤ g.numY) (hx : x < g.numX) (h2 : 2 ≤ g.numY) :
    (piece_id_of_vert_gap g pieces x y).isSome := by
  simp only [piece_id_of_vert_gap]
  by_cases hcase : (y : Int) < (g.numY : Int) - 1
  · rw [if_pos hcase, if_neg (by omega)]
    exact tileToPieceId_isSome_of_inBox hdec ⟨hx, by simp; omega⟩
  · rw [if_neg hcase, if_neg (by omega)]
    exact tileToPieceId_isSome_of_inBox hdec ⟨hx, by simp; omega⟩

lemma piece_id_of_gap_corner_isSome {g : FieldGrid} (hwf : WellFormed g)
    {pieces : List (List Tile)} (hdec : decompose g = some pieces)
    {x y : Nat} (hx : x ≤ g.numX) (hy : y ≤ g.numY) (h2x : 2 ≤ g.numX)
    (h2y : 2 ≤ g.numY) :
    (piece_id_of_gap_corner g pieces x y).isSome := by
  simp only [piece_id_of_gap_corner]
  by_cases hcx : (x : Int) < (g.numX : Int) - 1 <;>
    by_cases hcy : (y : Int) < (g.numY : Int) - 1 <;>
    [rw [if_pos hcx, if_pos hcy]; rw [if_pos hcx, if_neg hcy];
     rw [if_neg hcx, if_pos hcy]; rw [if_neg hcx, if_neg hcy]] <;>
    rw [if_neg (by omega)] <;>
    exact tileToPieceId_isSome_of_inBox hdec ⟨by simp; omega, by simp; omega⟩


lemma horizGapObjects_isSome {g : FieldGrid} (hwf : WellFormed g)
    {pieces : List (List Tile)} (hdec : decompose g = some pieces)
    (h2 : 2 ≤ g.numX) (s : GridSettings) (m0 : Nat → List Scad) :
    (horizGapObjects g s pieces m0).isSome := by
  unfold horizGapObjects
  apply foldlM_isSome
  intro yl hyl m
  apply foldlM_isSome
  intro xg hxg m2
  by_cases hb : xg.2 = true
  · rw [if_pos hb]; rfl
  · rw [if_neg hb]
    have hy : yl.1 < g.numY := by
      have h1 := enum_fst_lt hyl
      rw [List.length_take, hwf.1] at h1
      have hny : g.numY ≤ tileLimitDebug.2 := by unfold FieldGrid.numY; omega
      omega
    have hx : xg.1 ≤ g.numX := by
      have h1 := enum_fst_lt hxg
      have hmem : yl.2 ∈ g.horiz := List.take_subset _ _ (enum_snd_mem hyl)
      rw [List.length_take, hwf.2.2.1 yl.2 hmem] at h1
      have hnx : g.numX ≤ tileLimitDebug.1 := by unfold FieldGrid.numX; omega
      omega
    obtain ⟨pid, hpid⟩ := Option.isSome_iff_exists.mp
      (piece_id_of_horiz_gap_isSome hwf hdec hx hy h2)
    rw [hpid]
    rfl

lemma vertGapObjects_isSome {g : FieldGrid} (hwf : WellFormed g)
    {pieces : List (List Tile)} (hdec : decompose g = some pieces)
    (h2 : 2 ≤ g.numY) (s : GridSettings) (m0 : Nat → List Scad) :
    (vertGapObjects g s pieces m0).isSome := by
  unfold vertGapObjects
  apply foldlM_isSome
  intro xl hxl m
  apply foldlM_isSome
  intro yg hyg m2
  by_cases hb : yg.2 = true
  · rw [if_pos hb]; rfl
  · rw [if_neg hb]
    have hx : xl.1 < g.numX := by
      have h1 := enum_fst_lt hxl
      rw [List.length_take, hwf.2.1] at h1
      have hnx : g.numX ≤ tileLimitDebug.1 := by unfold FieldGrid.numX; omega
      omega
    have hy : yg.1 ≤ g.numY := by
      have h1 := enum_fst_lt hyg
      have hmem : xl.2 ∈ g.vert := List.take_subset _ _ (enum_snd_mem hxl)
      rw [List.length_take, hwf.2.2.2 xl.2 hmem] at h1
      have hny : g.numY ≤ tileLimitDebug.2 := by unfold FieldGrid.numY; omega
      omega
    obtain ⟨pid, hpid⟩ := Option.isSome_iff_exists.mp
      (piece_id_of_vert_gap_isSome hwf hdec hy hx h2)
    rw [hpid]
    rfl

lemma cornerObjects_isSome {g : FieldGrid} (hwf : WellFormed g)
    {pieces : List (List Tile)} (hdec : decompose g = some pieces)
    (h2x : 2 ≤ g.numX) (h2y : 2 ≤ g.numY) (s : GridSettings) :
    (cornerObjects g s pieces).isSome := by
  unfold cornerObjects
  apply foldlM_isSome
  intro x hx m
  apply foldlM_isSome
  intro y hy m2
  by_cases hb : cornerFillerEmitted g x y = true
  · rw [if_pos hb]
    obtain ⟨pid, hpid⟩ := Option.isSome_iff_exists.mp
      (piece_id_of_gap_corner_isSome hwf hdec
        (Nat.lt_succ_iff.mp (List.mem_range.mp hx))
        (Nat.lt_succ_iff.mp (List.mem_range.mp hy)) h2x h2y)
    rw [hpid]
    rfl
  · rw [if_neg hb]; rfl

lemma makeGridModel_isSome (s : GridSettings) {g : FieldGrid}
    (hwf : WellFormed g) (h2x : 2 ≤ g.numX) (h2y : 2 ≤ g.numY) :
    (makeGridModel s g).isSome := by
  obtain ⟨pieces, hdec⟩ := Option.isSome_iff_exists.mp (decompose_isSome g)
  obtain ⟨bmap, hb⟩ := Option.isSome_iff_exists.mp
    (borderingPiecesMap_isSome g pieces hdec)
  obtain ⟨tileObjs, hto⟩ := Option.isSome_iff_exists.mp
    (pieceTileObjects_isSome hwf hdec hb s)
  obtain ⟨gm1, hg1⟩ := Option.isSome_iff_exists.mp
    (horizGapObjects_isSome hwf hdec h2x s (fun _ => []))
  obtain ⟨gm2, hg2⟩ := Option.isSome_iff_exists.mp
    (vertGapObjects_isSome hwf hdec h2y s gm1)
  obtain ⟨corners, hcorn⟩ := Option.isSome_iff_exists.mp
    (cornerObjects_isSome hwf hdec h2x h2y s)
  obtain ⟨pobjs, hpo⟩ := Option.isSome_iff_exists.mp
    (assemblePieceObjects_isSome hwf hdec hb tileObjs gm2 corners)
  unfold makeGridModel
  rw [hdec]
  simp only [Option.bind_eq_bind, Option.some_bind]
  rw [hb]
  simp only [Option.some_bind]
  rw [hto]
  simp only [Option.some_bind]
  rw [hg1]
  simp only [Option.some_bind]
  rw [hg2]
  simp only [Option.some_bind]
  rw [hcorn]
  simp only [Option.some_bind]
  rw [hpo]
  rfl


/-! ## Claim C8: all-open grid geometry -/

/-- C8: on a well-formed grid with every gap open and at least one tile
row, `makeGrid` succeeds, every piece is a single tile in scan order, the
emitted tile solids number exactly one cuboid per tile, no bridging solid
and no corner-filler solid is emitted, and (with frame generation enabled,
spec-modelled since the source's `makeGrid` ignores `add_frame`) exactly
one frame solid is emitted. -/
theorem allOpen_geometry (s : GridSettings) (g : FieldGrid)
    (hwf : WellFormed g) (ho : AllOpen g) (hy : 1 ≤ g.numY) :
    ∃ mg, makeGridModel s g = some mg ∧
      mg.pieces = (scanTiles g).map (fun t => [t]) ∧
      (mg.pieceTileObjs.map List.length).sum = g.numX * g.numY ∧
      (∀ pid, mg.gapObjs pid = []) ∧
      (∀ pid, mg.cornerObjs pid = []) ∧
      (frameObjects s true g.numX g.numY).length = 1 := by
  have hdec := decompose_allOpen hwf ho
  obtain ⟨bmap, hb⟩ := Option.isSome_iff_exists.mp
    (borderingPiecesMap_isSome g ((scanTiles g).map (fun t => [t])) hdec)
  obtain ⟨tileObjs, hto⟩ := Option.isSome_iff_exists.mp
    (pieceTileObjects_isSome hwf hdec hb s)
  have hg1 := horizGapObjects_allOpen ho s ((scanTiles g).map (fun t => [t]))
    (fun _ => [])
  have hg2 := vertGapObjects_allOpen ho s ((scanTiles g).map (fun t => [t]))
    (fun _ => [])
  have hcorn := cornerObjects_allOpen hwf ho s ((scanTiles g).map (fun t => [t])) hy
  obtain ⟨pobjs, hpo⟩ := Option.isSome_iff_exists.mp
    (assemblePieceObjects_isSome hwf hdec hb tileObjs (fun _ => []) (fun _ => []))
  have hsum : (tileObjs.map List.length).sum = g.numX * g.numY := by
    have hlen : List.Forall₂ (fun (a : List Tile) (b : List Scad) =>
        a.length = b.length) ((scanTiles g).map (fun t => [t])) tileObjs :=
      List.Forall₂.imp (fun a b h => h.length_eq) (pieceTileObjects_spec hto)
    rw [sum_map_lengths_of_forall2 hlen]
    have hone : (((scanTiles g).map (fun t => ([t] : List Tile))).map List.length)
        = (scanTiles g).map (fun _ => 1) := by
      simp [Function.comp_def]
    rw [hone, sum_map_one, length_scanTiles]
  unfold makeGridModel
  rw [hdec]
  simp only [Option.bind_eq_bind, Option.some_bind]
  rw [hb]
  simp only [Option.some_bind]
  rw [hto]
  simp only [Option.some_bind]
  rw [hg1]
  simp only [Option.some_bind]
  rw [hg2]
  simp only [Option.some_bind]
  rw [hcorn]
  simp only [Option.some_bind]
  rw [hpo]
  exact ⟨_, rfl, rfl, hsum, fun _ => rfl, fun _ => rfl, by simp [frameObjects]⟩

/-- Witness for `allOpen_geometry` at the concrete all-open 1×1 grid. -/
theorem allOpen_geometry_witness :
    WellFormed gOpen11 ∧ AllOpen gOpen11 ∧ 1 ≤ gOpen11.numY ∧
    ∃ mg, makeGridModel large_grid_settings gOpen11 = some mg ∧
      mg.pieces = (scanTiles gOpen11).map (fun t => [t]) ∧
      (mg.pieceTileObjs.map List.length).sum = gOpen11.numX * gOpen11.numY ∧
      (∀ pid, mg.gapObjs pid = []) ∧
      (∀ pid, mg.cornerObjs pid = []) ∧
      (frameObjects large_grid_settings true gOpen11.numX gOpen11.numY).length = 1 :=
  ⟨by decide, by decide, by decide,
    allOpen_geometry large_grid_settings gOpen11 (by decide) (by decide) (by decide)⟩


/-! ## Claim C7: input validation -/

/-- C7 counterexample: neither `load_grid` nor `makeGrid` validates the
input.  The malformed grid `gmalSample` (its `vert` has two rows although
`len(horiz[0]) - 1 = 1`) runs to completion without any error, and the
zero-tile grid fails with an unhandled runtime lookup error (modelled
`none`), not a validation failure — so no `ValidationError` separates
malformed from well-formed inputs. -/
theorem validation_claim_counterexample :
    ¬WellFormed gmalSample ∧
    (makeGridModel large_grid_settings gmalSample).isSome ∧
    ¬WellFormed gzeroSample ∧
    (makeGridModel large_grid_settings gzeroSample).isNone :=
  ⟨by decide, by decide, by decide, by decide⟩

/-- C7 amended: the source performs no input validation; on any
size-consistent rectangular grid with at least 2×2 tiles, grid
construction completes without raising (the spec's demanded
`ValidationError` does not exist in the program). -/
theorem grid_construction_no_validation (s : GridSettings) (g : FieldGrid)
    (hwf : WellFormed g) (h2x : 2 ≤ g.numX) (h2y : 2 ≤ g.numY) :
    (makeGridModel s g).isSome :=
  makeGridModel_isSome s hwf h2x h2y

/-- Witness for `grid_construction_no_validation` on the concrete 2×2
grid. -/
theorem grid_construction_no_validation_witness :
    WellFormed sampleAllClosed22 ∧ 2 ≤ sampleAllClosed22.numX ∧
    2 ≤ sampleAllClosed22.numY ∧
    (makeGridModel large_grid_settings sampleAllClosed22).isSome :=
  ⟨by decide, by decide, by decide,
    grid_construction_no_validation large_grid_settings sampleAllClosed22
      (by decide) (by decide) (by decide)⟩


/-! ## Claim C6: matching puzzle pieces against the lower frame

The `else` branch of `main` (`SEPARATE_LAYER_OBJECTS = False`): gathering
the outermost tiles of the upper (puzzle) grid, grouping them by upper
piece id (`defaultdict(list)`, modelled as an insertion-ordered
association list), counting identical-coordinate overlaps with the lower
frame grid's pieces (`defaultdict(int)`), selecting
`max(counter, key=counter.get)` — the first key attaining the maximal
count — and composing each matched pair into one solid. -/

/-- `outermost_tiles`: the four border comprehensions concatenated; corner
tiles appear twice (and more often when a dimension is `1`).  Coordinates
are naturals; for `nx, ny ≥ 1` the saturating `- 1` agrees with the
source. -/
def outermostTiles (nx ny : Nat) : List Tile :=
  ((List.range nx).map (fun x => (x, 0))) ++
  ((List.range nx).map (fun x => (x, ny - 1))) ++
  ((List.range ny).map (fun y => (0, y))) ++
  ((List.range ny).map (fun y => (nx - 1, y)))

/-- `upper_frame_pieces_with_tiles[k].append(t)` on the insertion-ordered
association list standing for the `defaultdict(list)`. -/
def groupInsert (l : List (Nat × List Tile)) (k : Nat) (t : Tile) :
    List (Nat × List Tile) :=
  match l with
  | [] => [(k, [t])]
  | (k2, ts) :: rest =>
      if k2 = k then (k2, ts ++ [t]) :: rest else (k2, ts) :: groupInsert rest k t

/-- The `upper_frame_pieces_with_tiles` loop; the lookup
`tile_to_piece_id_map[tile]` raises (`none`) on a missing key. -/
def upperFramePiecesWithTiles (upperPieces : List (List Tile)) (nx ny : Nat) :
    Option (List (Nat × List Tile)) :=
  (outermostTiles nx ny).foldlM (fun acc tile =>
    match tileToPieceId upperPieces tile with
    | none => none
    | some pid => some (groupInsert acc pid tile)) []

/-- `lower_frame_piece_overlap_counter[k] += 1` on the insertion-ordered
association list standing for the `defaultdict(int)`. -/
def counterIncr (l : List (Nat × Nat)) (k : Nat) : List (Nat × Nat) :=
  match l with
  | [] => [(k, 1)]
  | (k2, c) :: rest =>
      if k2 = k then (k2, c + 1) :: rest else (k2, c) :: counterIncr rest k

/-- The overlap-counting loop over one upper piece's gathered tiles;
`dict.get` returns `None` on a missing key, which is skipped. -/
def overlapCounter (lowerPieces : List (List Tile)) (tiles : List Tile) :
    List (Nat × Nat) :=
  tiles.foldl (fun acc tile =>
    match tileToPieceId lowerPieces tile with
    | none => acc
    | some lpid => counterIncr acc lpid) []

/-- `max(d, key=d.get)`: the first key attaining the maximal value in
iteration order; `none` for the empty dict (Python's `ValueError`). -/
def dict_key_with_max_value (l : List (Nat × Nat)) : Option Nat :=
  match l with
  | [] => none
  | kv0 :: rest =>
      some ((rest.foldl (fun best kv => if kv.2 > best.2 then kv else best) kv0).1)

/-- The `best_lower_piece_for_upper_piece` loop: one selection per upper
frame piece, in the grouping's insertion order. -/
def bestLowerPieceForUpperPiece (upperPieces lowerPieces : List (List Tile))
    (nx ny : Nat) : Option (List (Nat × Nat)) := do
  let groups ← upperFramePiecesWithTiles upperPieces nx ny
  groups.mapM (fun kv =>
    match dict_key_with_max_value (overlapCounter lowerPieces kv.2) with
    | none => none
    | some best => some (kv.1, best))

/-- `translate_to_lower`: down by exactly one tile height. -/
def translate_to_lower (s : GridSettings) (o : Scad) : Scad :=
  Scad.translate (0, 0, -s.tile_height_mm) o

/-- `joint_frame_objects`: per matched pair, the upper piece object
unchanged unioned with the translated lower piece object; list indexing
out of range raises (`none`). -/
def jointFrameObjects (s : GridSettings) (upperObjs lowerObjs : List Scad)
    (best : List (Nat × Nat)) : Option (List (Nat × Scad)) :=
  best.mapM (fun kv =>
    match upperObjs.get? kv.1, lowerObjs.get? kv.2 with
    | some uo, some lo => some (kv.1, Scad.union [uo, translate_to_lower s lo])
    | _, _ => none)

/-- Association-list lookup with a default, for the `defaultdict` models. -/
def assocGet {β : Type} (d : β) (l : List (Nat × β)) (k : Nat) : β :=
  match l.find? (fun kv => kv.1 == k) with
  | some kv => kv.2
  | none => d

/-- The upper (puzzle) 3×3 grid of the matching counterexample: one piece
`{(0,0), (0,1), (1,0)}` around the origin corner, all other tiles
singleton pieces. -/
def upperC6 : FieldGrid :=
  { horiz := [[true, false, true, true], [true, true, true, true],
      [true, true, true, true]]
    vert := [[true, false, true, true], [true, true, true, true],
      [true, true, true, true]] }

/-- The lower (frame) 3×3 grid of the matching counterexample: `(0,0)` a
singleton piece (id `0`), `{(0,1), (1,1), (1,0)}` one piece (id `1`), all
other tiles singleton pieces. -/
def lowerC6 : FieldGrid :=
  { horiz := [[true, true, true, true], [true, false, true, true],
      [true, true, true, true]]
    vert := [[true, true, true, true], [true, false, true, true],
      [true, true, true, true]] }

/-- `decompose upperC6` (checked below). -/
def upC6pieces : List (List Tile) :=
  [[(0, 0), (0, 1), (1, 0)], [(0, 2)], [(1, 1)], [(1, 2)], [(2, 0)], [(2, 1)],
    [(2, 2)]]

/-- `decompose lowerC6` (checked below). -/
def loC6pieces : List (List Tile) :=
  [[(0, 0)], [(0, 1), (1, 1), (1, 0)], [(0, 2)], [(1, 2)], [(2, 0)], [(2, 1)],
    [(2, 2)]]

/-- The matching the source computes on the counterexample pair (checked
below). -/
def bestC6 : List (Nat × Nat) :=
  [(0, 0), (4, 4), (1, 2), (3, 3), (6, 6), (5, 5)]

/-- Following the specification's words: the distinct border tiles of an
upper piece — its tiles (deduplicated; the floodfill can record a tile
twice) that lie on the grid border. -/
def borderTilesOfPiece (upperPieces : List (List Tile)) (pid nx ny : Nat) :
    List Tile :=
  ((upperPieces.getD pid []).dedup).filter
    (fun t => decide (t ∈ outermostTiles nx ny))

/-- Following the specification's words: how many of the given border
tiles map, at the identical coordinate, to the given lower piece id. -/
def distinctBorderOverlapCount (lowerPieces : List (List Tile))
    (borderTiles : List Tile) (lpid : Nat) : Nat :=
  (borderTiles.filter (fun t => decide (tileToPieceId lowerPieces t = some lpid))).length


/-- C6 counterexample: on the concrete upper/lower 3×3 pair, upper piece
`0` has distinct border tiles `{(0,0), (0,1), (1,0)}`, of which two map to
lower piece `1` and only one to lower piece `0` — yet the source selects
lower piece `0`, because its gathered tile list `[(0,0), (1,0), (0,0),
(0,1)]` counts the corner `(0,0)` twice (the `outermost_tiles`
concatenation repeats corners), producing the tie `0 ↦ 2, 1 ↦ 2` that
`max` breaks toward the first-encountered key `0`.  The claimed selection
rule (highest count of identical-coordinate border-tile overlaps) demands
lower piece `1`. -/
theorem matching_claim_counterexample :
    decompose upperC6 = some upC6pieces ∧
    decompose lowerC6 = some loC6pieces ∧
    bestLowerPieceForUpperPiece upC6pieces loC6pieces
      upperC6.numX upperC6.numY = some bestC6 ∧
    (0, 0) ∈ bestC6 ∧ (0, 1) ∉ bestC6 ∧
    distinctBorderOverlapCount loC6pieces
      (borderTilesOfPiece upC6pieces 0 upperC6.numX upperC6.numY) 1 = 2 ∧
    distinctBorderOverlapCount loC6pieces
      (borderTilesOfPiece upC6pieces 0 upperC6.numX upperC6.numY) 0 = 1 :=
  ⟨by decide, by decide, by decide, by decide, by decide, by decide, by decide⟩


lemma assocGet_cons {β : Type} (d : β) (k1 : Nat) (v1 : β) (rest : List (Nat × β))
    (k : Nat) :
    assocGet d ((k1, v1) :: rest) k = if k1 = k then v1 else assocGet d rest k := by
  by_cases h : k1 = k
  · have hb : (((k1, v1) : Nat × β).1 == k) = true := by simpa using h
    simp [assocGet, List.find?_cons_of_pos _ hb, h]
  · have hb : ¬ (((k1, v1) : Nat × β).1 == k) = true := by simpa using h
    simp [assocGet, List.find?_cons_of_neg _ hb, h]

lemma assoc_mem_get {β : Type} (d : β) :
    ∀ {l : List (Nat × β)}, (l.map Prod.fst).Nodup →
      ∀ {k : Nat} {v : β}, (k, v) ∈ l → assocGet d l k = v := by
  intro l
  induction l with
  | nil => intro _ k v h; exact absurd h (List.not_mem_nil _)
  | cons a rest ih =>
    intro hnd k v h
    obtain ⟨k1, v1⟩ := a
    rw [List.map_cons, List.nodup_cons] at hnd
    obtain ⟨hk1, hrest⟩ := hnd
    rcases List.mem_cons.mp h with h1 | h2
    · simp only [Prod.mk.injEq] at h1
      obtain ⟨rfl, rfl⟩ := h1
      rw [assocGet_cons, if_pos rfl]
    · have hne : k1 ≠ k := by
        intro he
        exact hk1 (by rw [he]; exact List.mem_map.mpr ⟨(k, v), h2, rfl⟩)
      rw [assocGet_cons, if_neg hne]
      exact ih hrest h2

lemma assocGet_counterIncr_self (l : List (Nat × Nat)) (k : Nat) :
    assocGet 0 (counterIncr l k) k = assocGet 0 l k + 1 := by
  induction l with
  | nil => simp [counterIncr, assocGet_cons, assocGet]
  | cons a rest ih =>
    obtain ⟨k2, c⟩ := a
    by_cases hk : k2 = k
    · subst hk
      simp [counterIncr, assocGet_cons]
    · simp [counterIncr, hk, assocGet_cons, ih]

lemma assocGet_counterIncr_other (l : List (Nat × Nat)) (k k2 : Nat)
    (h : k2 ≠ k) : assocGet 0 (counterIncr l k) k2 = assocGet 0 l k2 := by
  induction l with
  | nil =>
    rw [show counterIncr [] k = [(k, 1)] from rfl, assocGet_cons,
      if_neg (fun he : k = k2 => h he.symm)]
  | cons a rest ih =>
    obtain ⟨k3, c⟩ := a
    by_cases hk : k3 = k
    · subst hk
      simp [counterIncr, assocGet_cons, Ne.symm h]
    · simp [counterIncr, hk, assocGet_cons, ih]

lemma counterIncr_keys (l : List (Nat × Nat)) (k : Nat) :
    (counterIncr l k).map Prod.fst = l.map Prod.fst ∨
    ((counterIncr l k).map Prod.fst = l.map Prod.fst ++ [k] ∧
      k ∉ l.map Prod.fst) := by
  induction l with
  | nil => right; simp [counterIncr]
  | cons a rest ih =>
    obtain ⟨k2, c⟩ := a
    by_cases hk : k2 = k
    · left; subst hk; simp [counterIncr]
    · rcases ih with h1 | ⟨h2, h3⟩
      · left; simp [counterIncr, hk, h1]
      · right
        refine ⟨by simp [counterIncr, hk, h2], ?_⟩
        simp only [List.map_cons, List.mem_cons]
        push_neg
        exact ⟨fun he => hk he.symm, h3⟩

lemma counterIncr_keys_nodup {l : List (Nat × Nat)}
    (h : (l.map Prod.fst).Nodup) (k : Nat) :
    ((counterIncr l k).map Prod.fst).Nodup := by
  rcases counterIncr_keys l k with h1 | ⟨h2, h3⟩
  · rw [h1]; exact h
  · rw [h2]; exact h.append (List.nodup_singleton k) (List.disjoint_singleton.mpr h3)

lemma groupInsert_keys (l : List (Nat × List Tile)) (k : Nat) (t : Tile) :
    (groupInsert l k t).map Prod.fst = l.map Prod.fst ∨
    ((groupInsert l k t).map Prod.fst = l.map Prod.fst ++ [k] ∧
      k ∉ l.map Prod.fst) := by
  induction l with
  | nil => right; simp [groupInsert]
  | cons a rest ih =>
    obtain ⟨k2, ts⟩ := a
    by_cases hk : k2 = k
    · left; subst hk; simp [groupInsert]
    · rcases ih with h1 | ⟨h2, h3⟩
      · left; simp [groupInsert, hk, h1]
      · right
        refine ⟨by simp [groupInsert, hk, h2], ?_⟩
        simp only [List.map_cons, List.mem_cons]
        push_neg
        exact ⟨fun he => hk he.symm, h3⟩

lemma groupInsert_keys_nodup {l : List (Nat × List Tile)}
    (h : (l.map Prod.fst).Nodup) (k : Nat) (t : Tile) :
    ((groupInsert l k t).map Prod.fst).Nodup := by
  rcases groupInsert_keys l k t with h1 | ⟨h2, h3⟩
  · rw [h1]; exact h
  · rw [h2]; exact h.append (List.nodup_singleton k) (List.disjoint_singleton.mpr h3)

lemma assocGet_groupInsert_self (l : List (Nat × List Tile)) (k : Nat) (t : Tile) :
    assocGet [] (groupInsert l k t) k = assocGet [] l k ++ [t] := by
  induction l with
  | nil => simp [groupInsert, assocGet_cons, assocGet]
  | cons a rest ih =>
    obtain ⟨k2, ts⟩ := a
    by_cases hk : k2 = k
    · subst hk
      simp [groupInsert, assocGet_cons]
    · simp [groupInsert, hk, assocGet_cons, ih]

lemma assocGet_groupInsert_other (l : List (Nat × List Tile)) (k : Nat) (t : Tile)
    (k2 : Nat) (h : k2 ≠ k) :
    assocGet [] (groupInsert l k t) k2 = assocGet [] l k2 := by
  induction l with
  | nil =>
    rw [show groupInsert [] k t = [(k, [t])] from rfl, assocGet_cons,
      if_neg (fun he : k = k2 => h he.symm)]
  | cons a rest ih =>
    obtain ⟨k3, ts⟩ := a
    by_cases hk : k3 = k
    · subst hk
      simp [groupInsert, assocGet_cons, Ne.symm h]
    · simp [groupInsert, hk, assocGet_cons, ih]


lemma foldl_first_max :
    ∀ (l : List (Nat × Nat)) (b : Nat × Nat),
      (l.foldl (fun best kv => if kv.2 > best.2 then kv else best) b = b ∧
        ∀ kc ∈ l, kc.2 ≤ b.2) ∨
      (∃ pre post,
        l = pre ++ (l.foldl (fun best kv => if kv.2 > best.2 then kv else best) b)
          :: post ∧
        b.2 < (l.foldl (fun best kv => if kv.2 > best.2 then kv else best) b).2 ∧
        (∀ kc ∈ pre,
          kc.2 < (l.foldl (fun best kv => if kv.2 > best.2 then kv else best) b).2) ∧
        (∀ kc ∈ post,
          kc.2 ≤ (l.foldl (fun best kv => if kv.2 > best.2 then kv else best) b).2)) := by
  intro l
  induction l with
  | nil =>
    intro b
    exact Or.inl ⟨rfl, fun kc hkc => absurd hkc (List.not_mem_nil kc)⟩
  | cons a as ih =>
    intro b
    have hf : ((a :: as).foldl (fun best kv => if kv.2 > best.2 then kv else best) b)
        = as.foldl (fun best kv => if kv.2 > best.2 then kv else best)
            (if a.2 > b.2 then a else b) := by
      simp only [List.foldl_cons]
    by_cases hab : a.2 > b.2
    · rw [hf, if_pos hab]
      rcases ih a with ⟨heq, hall⟩ | ⟨pre, post, heq, hlt, hpre, hpost⟩
      · right
        rw [heq]
        exact ⟨[], as, rfl, hab, fun kc hkc => absurd hkc (List.not_mem_nil kc), hall⟩
      · right
        refine ⟨a :: pre, post, ?_, ?_, ?_, hpost⟩
        · rw [List.cons_append, ← heq]
        · omega
        · intro kc hkc
          rcases List.mem_cons.mp hkc with h1 | h2
          · rw [h1]; exact hlt
          · exact hpre kc h2
    · rw [hf, if_neg hab]
      rcases ih b with ⟨heq, hall⟩ | ⟨pre, post, heq, hlt, hpre, hpost⟩
      · left
        refine ⟨heq, ?_⟩
        intro kc hkc
        rcases List.mem_cons.mp hkc with h1 | h2
        · rw [h1]; omega
        · exact hall kc h2
      · right
        refine ⟨a :: pre, post, ?_, hlt, ?_, hpost⟩
        · rw [List.cons_append, ← heq]
        · intro kc hkc
          rcases List.mem_cons.mp hkc with h1 | h2
          · rw [h1]; omega
          · exact hpre kc h2

lemma dict_key_first_max :
    ∀ {l : List (Nat × Nat)} {k : Nat}, dict_key_with_max_value l = some k →
      ∃ c pre post, l = pre ++ (k, c) :: post ∧
        (∀ kc ∈ pre, kc.2 < c) ∧ (∀ kc ∈ post, kc.2 ≤ c) := by
  intro l k h
  cases l with
  | nil => exact absurd h (by simp [dict_key_with_max_value])
  | cons kv0 rest =>
    simp only [dict_key_with_max_value, Option.some.injEq] at h
    set r := rest.foldl (fun best kv => if kv.2 > best.2 then kv else best) kv0 with hr
    have hfm := foldl_first_max rest kv0
    rw [← hr] at hfm
    have hkr : (k, r.2) = r := by rw [← h]
    rcases hfm with ⟨heq, hall⟩ | ⟨pre, post, heq, hlt, hpre, hpost⟩
    · refine ⟨r.2, [], rest, ?_, ?_, ?_⟩
      · rw [List.nil_append, hkr, heq]
      · intro kc hkc; exact absurd hkc (List.not_mem_nil kc)
      · intro kc hkc
        have := hall kc hkc
        rw [heq]
        omega
    · exact ⟨r.2, kv0 :: pre, post, by rw [List.cons_append, hkr, ← heq], fun kc hkc =>
        (List.mem_cons.mp hkc).elim (fun h1 => by rw [h1]; omega) (hpre kc),
        hpost⟩

lemma overlapCounter_aux (lp : List (List Tile)) :
    ∀ (tiles : List Tile) (acc : List (Nat × Nat)) (k : Nat),
      assocGet 0 (tiles.foldl (fun acc tile =>
        match tileToPieceId lp tile with
        | none => acc
        | some lpid => counterIncr acc lpid) acc) k
      = assocGet 0 acc k +
        (tiles.filter (fun t => decide (tileToPieceId lp t = some k))).length := by
  intro tiles
  induction tiles with
  | nil => intro acc k; simp
  | cons t ts ih =>
    intro acc k
    rw [List.foldl_cons]
    cases hp : tileToPieceId lp t with
    | none =>
      simp only [hp]
      rw [ih]
      simp [List.filter_cons, hp]
    | some p =>
      simp only [hp]
      rw [ih]
      by_cases hk : p = k
      · subst hk
        rw [assocGet_counterIncr_self]
        have hfl : (List.filter (fun t => decide (tileToPieceId lp t = some p))
            (t :: ts)).length
            = (List.filter (fun t => decide (tileToPieceId lp t = some p)) ts).length
              + 1 := by
          simp [List.filter_cons, hp]
        omega
      · rw [assocGet_counterIncr_other _ _ _ (fun he => hk he.symm)]
        have hfl : List.filter (fun t => decide (tileToPieceId lp t = some k))
            (t :: ts)
            = List.filter (fun t => decide (tileToPieceId lp t = some k)) ts := by
          simp [List.filter_cons, hp, hk]
        rw [hfl]

lemma overlapCounter_get (lp : List (List Tile)) (tiles : List Tile) (k : Nat) :
    assocGet 0 (overlapCounter lp tiles) k
      = (tiles.filter (fun t => decide (tileToPieceId lp t = some k))).length := by
  unfold overlapCounter
  rw [overlapCounter_aux]
  simp [assocGet]

lemma overlapCounter_keys_nodup (lp : List (List Tile)) (tiles : List Tile) :
    ((overlapCounter lp tiles).map Prod.fst).Nodup := by
  suffices h : ∀ (ts : List Tile) (acc : List (Nat × Nat)),
      (acc.map Prod.fst).Nodup →
      ((ts.foldl (fun acc tile =>
        match tileToPieceId lp tile with
        | none => acc
        | some lpid => counterIncr acc lpid) acc).map Prod.fst).Nodup by
    exact h tiles [] (by simp)
  intro ts
  induction ts with
  | nil => intro acc h2; exact h2
  | cons t ts2 ih =>
    intro acc h2
    rw [List.foldl_cons]
    cases hp : tileToPieceId lp t with
    | none => simp only [hp]; exact ih acc h2
    | some p => simp only [hp]; exact ih _ (counterIncr_keys_nodup h2 p)


lemma upperFrame_aux (up : List (List Tile)) :
    ∀ (tiles : List Tile) (acc groups : List (Nat × List Tile)),
      tiles.foldlM (fun acc tile =>
        match tileToPieceId up tile with
        | none => none
        | some pid => some (groupInsert acc pid tile)) acc = some groups →
      (∀ k, assocGet [] groups k
        = assocGet [] acc k ++
          tiles.filter (fun t => decide (tileToPieceId up t = some k))) ∧
      ((acc.map Prod.fst).Nodup → (groups.map Prod.fst).Nodup) := by
  intro tiles
  induction tiles with
  | nil =>
    intro acc groups h
    have heq : acc = groups := by simpa [pure] using h
    subst heq
    exact ⟨fun k => by simp, fun h2 => h2⟩
  | cons t ts ih =>
    intro acc groups h
    have hstep : (t :: ts).foldlM (fun acc tile =>
        match tileToPieceId up tile with
        | none => none
        | some pid => some (groupInsert acc pid tile)) acc
        = (match tileToPieceId up t with
           | none => none
           | some pid => some (groupInsert acc pid t)) >>= fun a2 =>
            ts.foldlM (fun acc tile =>
              match tileToPieceId up tile with
              | none => none
              | some pid => some (groupInsert acc pid tile)) a2 := rfl
    rw [hstep] at h
    cases hp : tileToPieceId up t with
    | none =>
      rw [hp] at h
      exact absurd h (by simp)
    | some p =>
      rw [hp] at h
      simp only [Option.bind_eq_bind, Option.some_bind] at h
      obtain ⟨hget, hnd⟩ := ih (groupInsert acc p t) groups h
      constructor
      · intro k
        rw [hget k]
        by_cases hk : p = k
        · subst hk
          rw [assocGet_groupInsert_self]
          simp [List.filter_cons, hp]
        · rw [assocGet_groupInsert_other _ _ _ _ (fun he => hk he.symm)]
          simp [List.filter_cons, hp, hk]
      · intro hacc
        exact hnd (groupInsert_keys_nodup hacc p t)

lemma upperFrame_groups_spec {up : List (List Tile)} {nx ny : Nat}
    {groups : List (Nat × List Tile)}
    (h : upperFramePiecesWithTiles up nx ny = some groups) :
    (groups.map Prod.fst).Nodup ∧
    ∀ {u : Nat} {tiles : List Tile}, (u, tiles) ∈ groups →
      tiles = (outermostTiles nx ny).filter
        (fun t => decide (tileToPieceId up t = some u)) := by
  obtain ⟨hget, hnd⟩ := upperFrame_aux up (outermostTiles nx ny) [] groups h
  have hnodup := hnd (by simp)
  refine ⟨hnodup, ?_⟩
  intro u tiles hmem
  have hg := assoc_mem_get ([] : List Tile) hnodup hmem
  rw [← hg, hget u]
  simp [assocGet]

lemma forall2_mem_right {α β : Type} {R : α → β → Prop} :
    ∀ {l1 : List α} {l2 : List β}, List.Forall₂ R l1 l2 →
      ∀ {b : β}, b ∈ l2 → ∃ a ∈ l1, R a b := by
  intro l1 l2 h
  induction h with
  | nil => intro b hb; exact absurd hb (List.not_mem_nil b)
  | cons hab hrest ih =>
    intro b hb
    rcases List.mem_cons.mp hb with h1 | h2
    · exact ⟨_, List.mem_cons_self _ _, by rw [h1]; exact hab⟩
    · obtain ⟨a, ha, har⟩ := ih h2
      exact ⟨a, List.mem_cons_of_mem _ ha, har⟩

lemma forall2_mem_left {α β : Type} {R : α → β → Prop} :
    ∀ {l1 : List α} {l2 : List β}, List.Forall₂ R l1 l2 →
      ∀ {a : α}, a ∈ l1 → ∃ b ∈ l2, R a b := by
  intro l1 l2 h
  induction h with
  | nil => intro a ha; exact absurd ha (List.not_mem_nil a)
  | cons hab hrest ih =>
    intro a ha
    rcases List.mem_cons.mp ha with h1 | h2
    · exact ⟨_, List.mem_cons_self _ _, by rw [h1]; exact hab⟩
    · obtain ⟨b, hb, hbr⟩ := ih h2
      exact ⟨b, List.mem_cons_of_mem _ hb, hbr⟩

lemma best_mem_spec {up lp : List (List Tile)} {nx ny : Nat}
    {best : List (Nat × Nat)}
    (hbest : bestLowerPieceForUpperPiece up lp nx ny = some best)
    {u l : Nat} (hul : (u, l) ∈ best) :
    ∃ tiles, tiles = (outermostTiles nx ny).filter
        (fun t => decide (tileToPieceId up t = some u)) ∧
      dict_key_with_max_value (overlapCounter lp tiles) = some l := by
  unfold bestLowerPieceForUpperPiece at hbest
  cases hg : upperFramePiecesWithTiles up nx ny with
  | none => rw [hg] at hbest; exact absurd hbest (by simp)
  | some groups =>
    rw [hg] at hbest
    simp only [Option.bind_eq_bind, Option.some_bind] at hbest
    have hf2 := mapM_some_forall2 _ _ _ hbest
    obtain ⟨kv, hkvmem, hrel⟩ := forall2_mem_right hf2 hul
    cases hdk : dict_key_with_max_value (overlapCounter lp kv.2) with
    | none => rw [hdk] at hrel; exact absurd hrel (by simp)
    | some b =>
      rw [hdk] at hrel
      simp only [Option.some.injEq, Prod.mk.injEq] at hrel
      obtain ⟨hu, hb⟩ := hrel
      obtain ⟨hnd, hspec⟩ := upperFrame_groups_spec hg
      have hkv2 : kv.2 = (outermostTiles nx ny).filter
          (fun t => decide (tileToPieceId up t = some u)) := by
        have h2 := hspec (show (kv.1, kv.2) ∈ groups from hkvmem)
        rw [hu] at h2
        exact h2
      exact ⟨kv.2, hkv2, by rw [hdk, hb]⟩


/-- C6 amended: for every decomposed upper/lower pair and every matched
pair `(u, l)` the source produces, the lower piece `l` attains the maximal
overlap count over the tile list gathered for `u` from the
`outermost_tiles` traversal — a traversal with multiplicity, in which
corner tiles occur twice — and is the first key of the insertion-ordered
counter attaining that maximum; its count is the number of gathered tile
occurrences of `u` mapping to `l` at the identical coordinate; and the
composed solid for the pair is the upper piece's object unchanged unioned
with the lower piece's object translated down by exactly one tile
height. -/
theorem matching_first_encountered_max (s : GridSettings)
    (upperPieces lowerPieces : List (List Tile)) (nx ny : Nat)
    (best : List (Nat × Nat))
    (hbest : bestLowerPieceForUpperPiece upperPieces lowerPieces nx ny = some best)
    (u l : Nat) (hul : (u, l) ∈ best) :
    ∃ tiles c pre post,
      tiles = (outermostTiles nx ny).filter
        (fun t => decide (tileToPieceId upperPieces t = some u)) ∧
      overlapCounter lowerPieces tiles = pre ++ (l, c) :: post ∧
      c = (tiles.filter
        (fun t => decide (tileToPieceId lowerPieces t = some l))).length ∧
      (∀ kc ∈ pre, kc.2 < c) ∧ (∀ kc ∈ post, kc.2 ≤ c) ∧
      (∀ upperObjs lowerObjs joint,
        jointFrameObjects s upperObjs lowerObjs best = some joint →
        ∃ uo lo, upperObjs.get? u = some uo ∧ lowerObjs.get? l = some lo ∧
          (u, Scad.union [uo, translate_to_lower s lo]) ∈ joint) := by
  obtain ⟨tiles, htiles, hdk⟩ := best_mem_spec hbest hul
  obtain ⟨c, pre, post, hdecomp, hpre, hpost⟩ := dict_key_first_max hdk
  refine ⟨tiles, c, pre, post, htiles, hdecomp, ?_, hpre, hpost, ?_⟩
  · have hmem : (l, c) ∈ overlapCounter lowerPieces tiles := by
      rw [hdecomp]; simp
    have hg := assoc_mem_get 0 (overlapCounter_keys_nodup lowerPieces tiles) hmem
    rw [← hg, overlapCounter_get]
  · intro uObjs lObjs joint hj
    have hf2 := mapM_some_forall2 _ _ _ hj
    obtain ⟨out, houtmem, hrel⟩ := forall2_mem_left hf2 hul
    dsimp only at hrel
    cases hu : uObjs.get? u with
    | none => rw [hu] at hrel; simp at hrel
    | some uo =>
      cases hl : lObjs.get? l with
      | none => rw [hu, hl] at hrel; simp at hrel
      | some lo =>
        rw [hu, hl] at hrel
        simp only [Option.some.injEq] at hrel
        exact ⟨uo, lo, rfl, rfl, by rw [hrel]; exact houtmem⟩

/-- Witness for `matching_first_encountered_max` at the concrete pair of
3×3 grids and the matched pair `(0, 0)`. -/
theorem matching_first_encountered_max_witness :
    bestLowerPieceForUpperPiece upC6pieces loC6pieces 3 3 = some bestC6 ∧
    (0, 0) ∈ bestC6 ∧
    ∃ tiles c pre post,
      tiles = (outermostTiles 3 3).filter
        (fun t => decide (tileToPieceId upC6pieces t = some 0)) ∧
      overlapCounter loC6pieces tiles = pre ++ (0, c) :: post ∧
      c = (tiles.filter
        (fun t => decide (tileToPieceId loC6pieces t = some 0))).length ∧
      (∀ kc ∈ pre, kc.2 < c) ∧ (∀ kc ∈ post, kc.2 ≤ c) ∧
      (∀ upperObjs lowerObjs joint,
        jointFrameObjects large_grid_settings upperObjs lowerObjs bestC6
          = some joint →
        ∃ uo lo, upperObjs.get? 0 = some uo ∧ lowerObjs.get? 0 = some lo ∧
          (0, Scad.union [uo, translate_to_lower large_grid_settings lo]) ∈ joint) :=
  ⟨by decide, by decide,
    matching_first_encountered_max large_grid_settings upC6pieces loC6pieces 3 3
      bestC6 (by decide) 0 0 (by decide)⟩


/-! ## Claim theorems C1, C4, C5, C9 and the remaining witnesses -/

/-- C1: two in-box tiles receive the same piece id exactly when a path of
tiles joins them in which every step crosses a gap whose stored state is
`false` (closed/bridged); tiles of different pieces have no such path. -/
theorem piece_ids_iff_connected (g : FieldGrid) (hwf : WellFormed g)
    (pieces : List (List Tile)) (hdec : decompose g = some pieces)
    (t1 t2 : Tile) (h1 : InBox g t1) (h2 : InBox g t2) :
    (∃ i, tileToPieceId pieces t1 = some i ∧ tileToPieceId pieces t2 = some i)
      ↔ Reach g t1 t2 :=
  sameId_iff_reach g hwf pieces hdec t1 t2 h1 h2

/-- Witness for `piece_ids_iff_connected` on the 2×2 all-closed grid. -/
theorem piece_ids_iff_connected_witness :
    WellFormed sampleAllClosed22 ∧
    decompose sampleAllClosed22 = some sampleClosedPieces ∧
    InBox sampleAllClosed22 (0, 0) ∧ InBox sampleAllClosed22 (1, 1) ∧
    ((∃ i, tileToPieceId sampleClosedPieces (0, 0) = some i ∧
        tileToPieceId sampleClosedPieces (1, 1) = some i)
      ↔ Reach sampleAllClosed22 (0, 0) (1, 1)) :=
  ⟨by decide, by decide, by decide, by decide,
    piece_ids_iff_connected sampleAllClosed22 (by decide) sampleClosedPieces
      (by decide) (0, 0) (1, 1) (by decide) (by decide)⟩

/-- Witness for `decompose_partition` on the 2×2 all-closed grid. -/
theorem decompose_partition_witness :
    WellFormed sampleAllClosed22 ∧
    decompose sampleAllClosed22 = some sampleClosedPieces ∧
    ((∀ t, InBox sampleAllClosed22 t →
        ∃ i, tileToPieceId sampleClosedPieces t = some i) ∧
     (∀ t i j (hi : i < sampleClosedPieces.length)
        (hj : j < sampleClosedPieces.length),
       t ∈ sampleClosedPieces.get ⟨i, hi⟩ → t ∈ sampleClosedPieces.get ⟨j, hj⟩ →
         i = j) ∧
     (∀ t i, tileToPieceId sampleClosedPieces t = some i →
       ∃ hi : i < sampleClosedPieces.length, t ∈ sampleClosedPieces.get ⟨i, hi⟩) ∧
     (∀ i, (∃ t, tileToPieceId sampleClosedPieces t = some i) ↔
       i < sampleClosedPieces.length) ∧
     (∀ p ∈ sampleClosedPieces, ∀ x ∈ p,
       headIdx sampleAllClosed22 p ≤ sidx sampleAllClosed22 x) ∧
     List.Pairwise (fun p q =>
       headIdx sampleAllClosed22 p < headIdx sampleAllClosed22 q)
       sampleClosedPieces) :=
  ⟨by decide, by decide,
    decompose_partition sampleAllClosed22 (by decide) sampleClosedPieces (by decide)⟩

/-- Witness for `coloring_first_fit` on the 2×2 all-closed grid. -/
theorem coloring_first_fit_witness :
    WellFormed sampleAllClosed22 ∧
    decompose sampleAllClosed22 = some sampleClosedPieces ∧
    borderingPiecesMap sampleAllClosed22 sampleClosedPieces = some bm22 ∧
    ((∀ i, i < sampleClosedPieces.length → ∃ c,
        (colorPieces bm22 sampleClosedPieces.length).1 i = some c ∧
        (∀ b ∈ bm22 i, b < i →
          (colorPieces bm22 sampleClosedPieces.length).1 b ≠ some c) ∧
        (∀ c2, c2 < c → ∃ b ∈ bm22 i, b < i ∧
          (colorPieces bm22 sampleClosedPieces.length).1 b = some c2)) ∧
     (∀ A B, B ∈ bm22 A →
       (colorPieces bm22 sampleClosedPieces.length).1 A
         ≠ (colorPieces bm22 sampleClosedPieces.length).1 B)) :=
  ⟨by decide, by decide, by rfl,
    coloring_first_fit sampleAllClosed22 (by decide) sampleClosedPieces (by decide)
      bm22 (by rfl)⟩

/-- C4 amended: the source emits a corner filler exactly when every
existing gap adjacent to the corner carries a bridge (stored value
`false`) — the inversion of the claimed condition. -/
theorem corner_filler_emission (g : FieldGrid) (x y : Nat) :
    cornerFillerEmitted g x y = true ↔ AllAdjacentGapsBridged g x y :=
  cornerEmitted_iff_allBridged g x y

/-- C5 amended: the emitted tile-solid list has exactly one cuboid per
entry of each piece's recorded tile list (entries can repeat a tile), each
solid the piece-colored `tile_side × tile_side × tile_height` cube
translated to `(y * tilegap, x * tilegap, 0)` — grid axes swapped in
output space. -/
theorem tile_solids_per_entry (s : GridSettings) (pieces : List (List Tile))
    (cm : Nat → Option Nat) (numUsed : Nat) (tileObjs : List (List Scad))
    (h : pieceTileObjects s pieces cm numUsed = some tileObjs) :
    List.Forall₂ (fun tiles objs => List.Forall₂ (fun t o => ∃ pid rgb,
      tileToPieceId pieces t = some pid ∧
      piece_color cm numUsed pid = some rgb ∧
      o = Scad.color rgb
        (Scad.translate ((t.2 : ℚ) * s.tilegap, (t.1 : ℚ) * s.tilegap, 0)
          (Scad.cube (s.tile_side_mm, s.tile_side_mm, s.tile_height_mm))))
      tiles objs) pieces tileObjs :=
  pieceTileObjects_spec h

/-- Witness for `tile_solids_per_entry` at a concrete one-tile piece
list. -/
theorem tile_solids_per_entry_witness :
    pieceTileObjects large_grid_settings [[(0, 0)]] (fun _ => some 0) 1
      = some tileObjsW ∧
    List.Forall₂ (fun tiles objs => List.Forall₂ (fun t o => ∃ pid rgb,
      tileToPieceId [[(0, 0)]] t = some pid ∧
      piece_color (fun _ => some 0) 1 pid = some rgb ∧
      o = Scad.color rgb
        (Scad.translate ((t.2 : ℚ) * large_grid_settings.tilegap,
          (t.1 : ℚ) * large_grid_settings.tilegap, 0)
          (Scad.cube (large_grid_settings.tile_side_mm,
            large_grid_settings.tile_side_mm,
            large_grid_settings.tile_height_mm))))
      tiles objs) [[(0, 0)]] tileObjsW :=
  ⟨by rfl,
    tile_solids_per_entry large_grid_settings [[(0, 0)]] (fun _ => some 0) 1
      tileObjsW (by rfl)⟩

/-- C9: the bordering map has an edge between distinct ids `A`, `B`
exactly when a tile of `A` shares a side with a tile of `B` regardless of
bridge state, and the relation is symmetric. -/
theorem bordering_adjacency (g : FieldGrid) (hwf : WellFormed g)
    (pieces : List (List Tile)) (hdec : decompose g = some pieces)
    (m : Nat → Finset Nat) (hm : borderingPiecesMap g pieces = some m)
    (A B : Nat) :
    (B ∈ m A ↔ A ≠ B ∧ ∃ t n, InBox g t ∧ n ∈ directNeighborTiles g t ∧
      tileToPieceId pieces t = some A ∧ tileToPieceId pieces n = some B) ∧
    (B ∈ m A ↔ A ∈ m B) :=
  borderingMap_spec g hwf pieces hdec m hm A B

/-- Witness for `bordering_adjacency` on the 2×2 all-closed grid. -/
theorem bordering_adjacency_witness :
    WellFormed sampleAllClosed22 ∧
    decompose sampleAllClosed22 = some sampleClosedPieces ∧
    borderingPiecesMap sampleAllClosed22 sampleClosedPieces = some bm22 ∧
    ((0 ∈ bm22 0 ↔ (0 : Nat) ≠ 0 ∧ ∃ t n, InBox sampleAllClosed22 t ∧
        n ∈ directNeighborTiles sampleAllClosed22 t ∧
        tileToPieceId sampleClosedPieces t = some 0 ∧
        tileToPieceId sampleClosedPieces n = some 0) ∧
     (0 ∈ bm22 0 ↔ 0 ∈ bm22 0)) :=
  ⟨by decide, by decide, by rfl,
    bordering_adjacency sampleAllClosed22 (by decide) sampleClosedPieces
      (by decide) bm22 (by rfl) 0 0⟩

/-- Witness for `solid_attribution` on the 2×2 all-closed grid. -/
theorem solid_attribution_witness :
    WellFormed sampleAllClosed22 ∧
    decompose sampleAllClosed22 = some sampleClosedPieces ∧
    ((∀ x y, 1 ≤ x → x ≤ sampleAllClosed22.numX - 1 →
        y < sampleAllClosed22.numY → sampleAllClosed22.horizAt y x = false →
        tileToPieceId sampleClosedPieces (x - 1, y)
          = tileToPieceId sampleClosedPieces (x, y) ∧
          (tileToPieceId sampleClosedPieces (x, y)).isSome) ∧
     (∀ x y, 1 ≤ y → y ≤ sampleAllClosed22.numY - 1 →
        x < sampleAllClosed22.numX → sampleAllClosed22.vertAt x y = false →
        tileToPieceId sampleClosedPieces (x, y - 1)
          = tileToPieceId sampleClosedPieces (x, y) ∧
          (tileToPieceId sampleClosedPieces (x, y)).isSome) ∧
     (∀ x y, x ≤ sampleAllClosed22.numX → y ≤ sampleAllClosed22.numY →
        cornerFillerEmitted sampleAllClosed22 x y = true →
        ∀ a ∈ cornerAdjTiles sampleAllClosed22 x y,
          ∀ b ∈ cornerAdjTiles sampleAllClosed22 x y,
          tileToPieceId sampleClosedPieces a = tileToPieceId sampleClosedPieces b ∧
            (tileToPieceId sampleClosedPieces a).isSome)) :=
  ⟨by decide, by decide,
    solid_attribution sampleAllClosed22 (by decide) sampleClosedPieces (by decide)⟩

